import Mathlib

/-!
Verification of the editml-go matching-and-resolution engine.

This file gives a shallow embedding, in Lean 4, of the core of the
`verkaro/editml-go` repository: the regex-based matching engine and overlap
resolver of `parser/parser.go`, the escape processing of
`unescapeInlineContent` / `unescapeStructuralBlockContent`, the AST node model
of `model/`, and the Clean-View transformer of `transformer/transformer.go`
together with the public wrapper `TransformCleanView` of `api.go`.

Strings are modelled as `List Char` (Go strings are byte slices indexed by
offsets; all delimiters involved are ASCII, so char-level indexing coincides
with Go's byte offsets on the inputs of interest).  Each Go regular expression
is embedded as an explicit scanner with Go's leftmost / lazy-content / greedy
submatch semantics, specialised to the concrete pattern used by the source.
`strings.ReplaceAll` is embedded, specialised to the two-character patterns and
one-character replacements the source uses, by `replace2`.

The transformer in Go recurses through the parser on each structural block's
content without a structural decrease; the embedding makes that recursion
explicit with a `fuel` parameter that bounds the recursion depth (fuel `0`
treats a block transform like a failed recursive transformation).  Theorems
below show the result is independent of `fuel` from depth 2 on, so the fuel is
a proof device, not a behavioural change.
-/

namespace EditML

/-- Go strings, modelled as lists of characters. -/
abbrev Str := List Char

/-- Coerce a Lean string literal to the `Str` model. -/
def str (s : String) : Str := s.data

/-- Left curly brace (written via its code point to keep it out of string literals). -/
def lbrace : Char := Char.ofNat 123

/-- Right curly brace. -/
def rbrace : Char := Char.ofNat 125

/-- Backslash. -/
def bsC : Char := Char.ofNat 92

def tildeC : Char := '~'
def plusC : Char := '+'
def dashC : Char := '-'
def gtC : Char := '>'
def ltC : Char := '<'
def eqC : Char := '='
def colonC : Char := ':'

/-- The character class `[a-zA-Z0-9]` of the Go patterns. -/
def isAlnumChar (c : Char) : Bool := c.isAlpha || c.isDigit

/-- `input[a:b]` on Go strings: the slice from offset `a` (inclusive) to `b` (exclusive). -/
def slice (s : Str) (a b : Nat) : Str := (s.drop a).take (b - a)

/-- `true` iff offset `i` is in bounds and holds character `c`. -/
def chAt (s : Str) (i : Nat) (c : Char) : Bool := s[i]? == some c

/-- Length of the maximal `[a-zA-Z0-9]` run starting at offset `p`. -/
def alnumRun (s : Str) (p : Nat) : Nat := ((s.drop p).takeWhile isAlnumChar).length

/-- Concatenate a list of strings (the output accumulator `strings.Builder`). -/
def joinStr (l : List Str) : Str := l.foldr (· ++ ·) []

/-- `sub` is a leading segment of `l`. -/
def startsWithL : Str → Str → Bool
  | [], _ => true
  | _ :: _, [] => false
  | a :: as, b :: bs => a == b && startsWithL as bs

/-- `strings.Contains l sub`: some suffix of `l` starts with `sub`. -/
def hasSub (sub : Str) : Str → Bool
  | [] => startsWithL sub []
  | l@(_ :: rest) => startsWithL sub l || hasSub sub rest

/-- `strings.ReplaceAll`, specialised to a two-character pattern `[a, b]` and a
one-character replacement `[c]`: a single left-to-right pass replacing
non-overlapping occurrences. -/
def replace2 (a b c : Char) : Str → Str
  | x :: y :: rest =>
    if x == a && y == b then c :: replace2 a b c rest
    else x :: replace2 a b c (y :: rest)
  | l => l

/-- Lookup in an association list keyed by `Str` (the Go `map[string]...`). -/
def alookup (k : Str) : List (Str × α) → Option α
  | [] => none
  | (k2, v) :: rest => if k2 == k then some v else alookup k rest

/-! ## AST model (`model/node.go`, `model/inline.go`, `model/structural.go`)

The Go enumerations `EditType` and the operation constants are strings; the
embedding keeps them as `Str` values to match the source. -/

def EditTypeAddition : Str := str "addition"
def EditTypeDeletion : Str := str "deletion"
def EditTypeComment : Str := str "comment"
def EditTypeHighlight : Str := str "highlight"

def OperationMove : Str := str "move"
def OperationCopy : Str := str "copy"

/-- The AST node variants: `TextNode`, `InlineEditNode`, `StructuralSourceNode`,
`StructuralTargetNode`. Field order follows the Go structs. -/
inductive Node where
  | text (text : Str)
  | inlineEdit (editType : Str) (content : Str) (editorID : Str)
  | structuralSource (operation : Str) (tag : Str) (blockContent : Str)
  | structuralTarget (operation : Str) (tag : Str)
deriving DecidableEq, Repr

/-! ## Escape processor (`parser/parser.go`) -/

/-- `unescapeInlineContent`: general escapes `\\`, then `\lbrace`, then
`\rbrace`, then the operator escape of the edit type (none for an
unrecognised type, mirroring the Go `switch` without a default). -/
def unescapeInlineContent (content : Str) (editType : Str) : Str :=
  let c1 := replace2 bsC bsC bsC content
  let c2 := replace2 bsC lbrace lbrace c1
  let c3 := replace2 bsC rbrace rbrace c2
  if editType == EditTypeAddition then replace2 bsC plusC plusC c3
  else if editType == EditTypeDeletion then replace2 bsC dashC dashC c3
  else if editType == EditTypeComment then replace2 bsC ltC ltC c3
  else if editType == EditTypeHighlight then replace2 bsC eqC eqC c3
  else c3

/-- `unescapeStructuralBlockContent`: `\\` then `\~` only. -/
def unescapeStructuralBlockContent (content : Str) : Str :=
  replace2 bsC tildeC tildeC (replace2 bsC bsC bsC content)

/-! ## Matching engine (`parser/parser.go`)

One candidate span found by a pattern search: the `genericMatch` struct. -/

structure GenericMatch where
  startIndex : Nat
  endIndex : Nat
  node : Node
deriving DecidableEq, Repr

/-- First offset `j` (scanning `j0, j0+1, ...` within the given budget) where
`f` yields a hit; models a lazy (`.*?`) content group followed by the rest of
the pattern. -/
def firstHit (f : Nat → Option α) : Nat → Nat → Option (Nat × α)
  | _, 0 => none
  | j, b + 1 =>
    match f j with
    | some a => some (j, a)
    | none => firstHit f (j + 1) b

/-- The continuation of an inline pattern after the lazy content group:
the closing operator `c`, then an optional 1-5 character alphanumeric editor
id (`editorIDPattern`), then the closing brace.  Returns the match end and the
captured editor id.  A greedy `[a-zA-Z0-9]{1,5}` run of length more than 5
cannot be followed by the brace, so the continuation fails there (the run is
maximal, shorter prefixes are followed by an alphanumeric character). -/
def inlineCloserAt (s : Str) (c : Char) (j : Nat) : Option (Nat × Str) :=
  if chAt s j c then
    let p := j + 1
    let m := alnumRun s p
    if m == 0 then
      if chAt s p rbrace then some (p + 1, []) else none
    else
      if m ≤ 5 && chAt s (p + m) rbrace then some (p + m + 1, slice s p (p + m))
      else none
  else none

/-- Try to match one inline pattern (opening brace, opening operator `o`, lazy
content, closer per `inlineCloserAt`) starting exactly at offset `i`. -/
def tryInlineAt (s : Str) (et : Str) (o c : Char) (i : Nat) : Option GenericMatch :=
  if chAt s i lbrace && chAt s (i + 1) o then
    match firstHit (inlineCloserAt s c) (i + 2) (s.length + 1) with
    | some (j, e, id) =>
      some ⟨i, e, .inlineEdit et (unescapeInlineContent (slice s (i + 2) j) et) id⟩
    | none => none
  else none

/-- The literal characters `kw` occur at offset `i`. -/
def litAt (s : Str) (i : Nat) : Str → Bool
  | [] => true
  | c :: cs => chAt s i c && litAt s (i + 1) cs

/-- Match one of the operation keywords followed by the delimiter (`~` for
sources, `:` for targets); returns the offset just past the delimiter.  The
keyword alternatives of the Go pattern are tried in order. -/
def kwDelimAt (s : Str) (i : Nat) (delim : Char) : List Str → Option Nat
  | [] => none
  | kw :: rest =>
    if litAt s i kw && chAt s (i + kw.length) delim then some (i + kw.length + 1)
    else kwDelimAt s i delim rest

def moveKws : List Str := [str "move", str "mv", str "m"]
def copyKws : List Str := [str "copy", str "cp", str "c"]

/-- The continuation of a structural source pattern after the lazy content
group: `~`, a non-empty greedy alphanumeric tag, and the closing brace.
Returns the match end and the captured tag. -/
def sourceCloserAt (s : Str) (j : Nat) : Option (Nat × Str) :=
  if chAt s j tildeC then
    let m := alnumRun s (j + 1)
    if 1 ≤ m && chAt s (j + 1 + m) rbrace then some (j + 1 + m + 1, slice s (j + 1) (j + 1 + m))
    else none
  else none

/-- Try to match a structural source (`moveSourceRegex` / `copySourceRegex`)
at offset `i`; the operation stored on the node is the normalised name. -/
def trySourceAt (s : Str) (kws : List Str) (opNorm : Str) (i : Nat) : Option GenericMatch :=
  if chAt s i lbrace then
    match kwDelimAt s (i + 1) tildeC kws with
    | some cs0 =>
      match firstHit (sourceCloserAt s) cs0 (s.length + 1) with
      | some (j, e, tag) =>
        some ⟨i, e, .structuralSource opNorm tag (unescapeStructuralBlockContent (slice s cs0 j))⟩
      | none => none
    | none => none
  else none

/-- Try to match a structural target (`moveTargetRegex` / `copyTargetRegex`)
at offset `i`. -/
def tryTargetAt (s : Str) (kws : List Str) (opNorm : Str) (i : Nat) : Option GenericMatch :=
  if chAt s i lbrace then
    match kwDelimAt s (i + 1) colonC kws with
    | some p =>
      let m := alnumRun s p
      if 1 ≤ m && chAt s (p + m) rbrace then
        some ⟨i, p + m + 1, .structuralTarget opNorm (slice s p (p + m))⟩
      else none
    | none => none
  else none

/-- `FindAllStringSubmatchIndex`: repeatedly take the leftmost match at or
after the scan position, then continue just past its end.  The budget is a
fuel bound on the number of scan steps; `s.length + 1` steps suffice to visit
every start offset because the position strictly increases. -/
def findAllWith (tryf : Nat → Option GenericMatch) : Nat → Nat → List GenericMatch
  | _, 0 => []
  | i, b + 1 =>
    match tryf i with
    | some m => m :: findAllWith tryf m.endIndex b
    | none => findAllWith tryf (i + 1) b

/-- All candidate spans of the eight independent pattern searches, in the
order the Go parser collects them. -/
def allCandidates (s : Str) : List GenericMatch :=
  findAllWith (tryInlineAt s EditTypeAddition plusC plusC) 0 (s.length + 1)
    ++ findAllWith (tryInlineAt s EditTypeDeletion dashC dashC) 0 (s.length + 1)
    ++ findAllWith (tryInlineAt s EditTypeComment gtC ltC) 0 (s.length + 1)
    ++ findAllWith (tryInlineAt s EditTypeHighlight eqC eqC) 0 (s.length + 1)
    ++ findAllWith (trySourceAt s moveKws OperationMove) 0 (s.length + 1)
    ++ findAllWith (tryTargetAt s moveKws OperationMove) 0 (s.length + 1)
    ++ findAllWith (trySourceAt s copyKws OperationCopy) 0 (s.length + 1)
    ++ findAllWith (tryTargetAt s copyKws OperationCopy) 0 (s.length + 1)

/-- The Go sort comparator on candidates: ascending start offset, ties broken
by the larger end offset. -/
def matchLe (a b : GenericMatch) : Bool :=
  a.startIndex < b.startIndex || (a.startIndex == b.startIndex && b.endIndex ≤ a.endIndex)

/-- Insert into a `matchLe`-sorted list. -/
def insertM (m : GenericMatch) : List GenericMatch → List GenericMatch
  | [] => [m]
  | x :: xs => if matchLe m x then m :: x :: xs else x :: insertM m xs

/-- A sort realising the Go comparator (`sort.Slice` guarantees only
comparator-consistency; candidate starts are pairwise distinct in practice, so
any consistent sort yields the same sequence). -/
def sortMatches : List GenericMatch → List GenericMatch
  | [] => []
  | m :: ms => insertM m (sortMatches ms)

/-- Step 10 of `ParseEditMLToNodes`: walk the sorted candidates with a cursor
(`lastIndex`), discarding overlaps, interleaving `Text` nodes for gaps, and
emitting a trailing `Text` node for any remainder. -/
def interleave (input : Str) : List GenericMatch → Nat → List Node
  | [], last =>
    if last < input.length then [.text (slice input last input.length)] else []
  | m :: ms, last =>
    if m.startIndex < last then interleave input ms last
    else
      (if last < m.startIndex then [Node.text (slice input last m.startIndex)] else [])
        ++ m.node :: interleave input ms m.endIndex

/-- `ParseEditMLToNodes`.  The Go function also returns an `error`, but its
`issues` slice is never appended to, so the error is always `nil`; the
embedding drops it. -/
def ParseEditMLToNodes (input : Str) : List Node :=
  interleave input (sortMatches (allCandidates input)) 0

/-! ## Clean-View transformer (`transformer/transformer.go`)

`TransformToCleanView` returns `(output, error)`; the two `fmt.Errorf` return
points are the only error productions, embedded as a structured error type
(the formatted message is immaterial to control flow). -/

inductive TransformError where
  | duplicateSourceTag (tag : Str)
  | multipleMoveTargets (tag : Str)
deriving DecidableEq, Repr

/-- The `sourceDetail` record of the pre-scan (node fields inlined). -/
structure SourceDetail where
  operation : Str
  tag : Str
  blockContent : Str
  transformedBlock : Str
  isUsedAsMove : Bool
deriving DecidableEq, Repr

/-- The `targetDetail` record (its node's fields). -/
structure TargetDetail where
  operation : Str
  tag : Str
deriving DecidableEq, Repr

abbrev SMap := List (Str × SourceDetail)
abbrev TMap := List (Str × List TargetDetail)
abbrev CMap := List (Str × Nat)

/-- Append a target detail to the per-tag list (Go `append(allTargets[tag], d)`). -/
def tinsert (ts : TMap) (tag : Str) (d : TargetDetail) : TMap :=
  match ts with
  | [] => [(tag, [d])]
  | (k, l) :: rest => if k == tag then (k, l ++ [d]) :: rest else (k, l) :: tinsert rest tag d

/-- Store a counter value for a tag (Go `moveTargetCounts[tag] = c`). -/
def cinsert (cs : CMap) (tag : Str) (c : Nat) : CMap :=
  match cs with
  | [] => [(tag, c)]
  | (k, v) :: rest => if k == tag then (k, c) :: rest else (k, v) :: cinsert rest tag c

/-- Counter lookup with Go's zero default. -/
def clookupD (cs : CMap) (tag : Str) : Nat := (alookup tag cs).getD 0

/-- `fmt.Sprintf` of the block whose recursive transformation failed:
`"\x7b%s~%s (ERROR_TRANSFORMING_CONTENT)~%s\x7d"`. -/
def errTransformMarker (op bc tag : Str) : Str :=
  lbrace :: op ++ tildeC :: bc ++ str " (ERROR_TRANSFORMING_CONTENT)" ++ tildeC :: tag ++ [rbrace]

/-- Literal unresolved-source form `"\x7b%s~%s~%s\x7d"`. -/
def literalSource (op bc tag : Str) : Str :=
  lbrace :: op ++ tildeC :: bc ++ tildeC :: tag ++ [rbrace]

/-- Literal unresolved-target form `"\x7b%s:%s\x7d"`. -/
def literalTarget (op tag : Str) : Str :=
  lbrace :: op ++ colonC :: tag ++ [rbrace]

/-- Placeholder for the should-not-happen missing-source branch:
`"\x7b%s~%s~%s (ERROR_SOURCE_NOT_FOUND_IN_MAP)\x7d"`. -/
def errSourceNotFound (op bc tag : Str) : Str :=
  lbrace :: op ++ tildeC :: bc ++ tildeC :: tag ++ str " (ERROR_SOURCE_NOT_FOUND_IN_MAP)" ++ [rbrace]

/-- Operation-mismatch placeholder:
`"\x7b%s:%s (ERROR_OPERATION_MISMATCH_WITH_SOURCE %s)\x7d"`. -/
def errMismatch (op tag srcOp : Str) : Str :=
  lbrace :: op ++ colonC :: tag ++ str " (ERROR_OPERATION_MISMATCH_WITH_SOURCE " ++ srcOp ++ str ")" ++ [rbrace]

/-- `strings.Contains(transformedBlock, "(ERROR_")`. -/
def containsERR (s : Str) : Bool := hasSub (str "(ERROR_") s

/-- First pass of `TransformToCleanView`: collect sources (pre-transforming
each block's content via the supplied block transformer `bt`), targets, and
move-target counts, failing on a duplicate source tag or on a second
move-operation target for one tag. -/
def prescan (bt : Str → Str → Str → Str) :
    List Node → SMap → TMap → CMap → Except TransformError (SMap × TMap × CMap)
  | [], ss, ts, cs => .ok (ss, ts, cs)
  | n :: rest, ss, ts, cs =>
    match n with
    | .structuralSource op tag bc =>
      if (alookup tag ss).isSome then .error (.duplicateSourceTag tag)
      else
        prescan bt rest
          (ss ++ [(tag, ⟨op, tag, bc, bt op bc tag, false⟩)]) ts cs
    | .structuralTarget op tag =>
      let ts2 := tinsert ts tag ⟨op, tag⟩
      if op == OperationMove then
        let c := clookupD cs tag + 1
        if 1 < c then .error (.multipleMoveTargets tag)
        else prescan bt rest ss ts2 (cinsert cs tag c)
      else prescan bt rest ss ts2 cs
    | _ => prescan bt rest ss ts cs

/-- One step of the marking loop: a source is `isUsedAsMove` iff its operation
is move, its tag has a non-empty target list containing a move-operation
target, and the move-target count for the tag is exactly one. -/
def markOne (ts : TMap) (cs : CMap) (tag : Str) (d : SourceDetail) : SourceDetail :=
  if d.operation == OperationMove then
    match alookup tag ts with
    | some targets =>
      if !targets.isEmpty && targets.any (fun t => t.operation == OperationMove)
          && clookupD cs tag == 1 then
        { d with isUsedAsMove := true }
      else d
    | none => d
  else d

/-- The marking loop over the whole source map. -/
def markMoves (ts : TMap) (cs : CMap) (ss : SMap) : SMap :=
  ss.map fun p => (p.1, markOne ts cs p.1 p.2)

/-- Step 2 of `TransformToCleanView`: what one node appends to the output
accumulator, given the validated maps. -/
def renderNode (ss : SMap) (ts : TMap) (n : Node) : Str :=
  match n with
  | .text t => t
  | .inlineEdit et content _ =>
    if et == EditTypeAddition then content
    else if et == EditTypeDeletion then []
    else if et == EditTypeComment then []
    else if et == EditTypeHighlight then content
    else []
  | .structuralSource op tag bc =>
    match alookup tag ss with
    | none => errSourceNotFound op bc tag
    | some d =>
      if op == OperationMove then
        if !d.isUsedAsMove then
          if containsERR d.transformedBlock then d.transformedBlock
          else literalSource op bc tag
        else []
      else if op == OperationCopy then
        let isValidCopy :=
          match alookup tag ts with
          | some targets => targets.any (fun t => t.operation == OperationCopy)
          | none => false
        if !isValidCopy || containsERR d.transformedBlock then
          if containsERR d.transformedBlock then d.transformedBlock
          else literalSource op bc tag
        else d.transformedBlock
      else []
  | .structuralTarget op tag =>
    match alookup tag ss with
    | none => literalTarget op tag
    | some d =>
      if !(op == d.operation) then errMismatch op tag d.operation
      else if containsERR d.transformedBlock then d.transformedBlock
      else if op == OperationMove then
        if d.isUsedAsMove then d.transformedBlock else literalTarget op tag
      else if op == OperationCopy then d.transformedBlock
      else []

/-- The whole transformation, parameterised by the block transformer used for
structural source content. -/
def goTransform (bt : Str → Str → Str → Str) (nodes : List Node) :
    Str × Option TransformError :=
  match prescan bt nodes [] [] [] with
  | .error e => ([], some e)
  | .ok (ss, ts, cs) =>
    (joinStr (nodes.map (renderNode (markMoves ts cs ss) ts)), none)

/-- `TransformToCleanView`, with an explicit recursion-depth fuel.  At positive
fuel a source block's content is re-parsed with `ParseEditMLToNodes` (which
never returns a Go error, so the `ERROR_PARSING_CONTENT` branch of the source
is dead) and recursively transformed; a recursive error is captured as the
embedded `ERROR_TRANSFORMING_CONTENT` marker.  At fuel `0` the block transform
is cut off with the same marker; the stabilisation theorems below show fuel
`2` already gives the fixed point on every input. -/
def TransformToCleanView : Nat → List Node → Str × Option TransformError
  | 0, nodes => goTransform errTransformMarker nodes
  | f + 1, nodes =>
    goTransform
      (fun op bc tag =>
        match TransformToCleanView f (ParseEditMLToNodes bc) with
        | (s, none) => s
        | (_, some _) => errTransformMarker op bc tag)
      nodes

/-- The block transformer that `TransformToCleanView fuel` uses. -/
def btOf : Nat → Str → Str → Str → Str
  | 0 => errTransformMarker
  | f + 1 => fun op bc tag =>
    match TransformToCleanView f (ParseEditMLToNodes bc) with
    | (s, none) => s
    | (_, some _) => errTransformMarker op bc tag

/-- The pre-scan of `TransformToCleanView fuel nodes`, exposed for theorems. -/
def scanResult (fuel : Nat) (nodes : List Node) :
    Except TransformError (SMap × TMap × CMap) :=
  prescan (btOf fuel) nodes [] [] []

theorem transform_eq_go (fuel : Nat) (nodes : List Node) :
    TransformToCleanView fuel nodes = goTransform (btOf fuel) nodes := by
  cases fuel <;> rfl

/-! ## Public API (`api.go`) -/

/-- Issue severities are Go strings. -/
def SeverityError : Str := str "error"
def SeverityWarning : Str := str "warning"

/-- The `editml.Issue` struct. -/
structure Issue where
  message : Str
  line : Nat
  column : Nat
  severity : Str
deriving DecidableEq, Repr

/-- The `fmt.Errorf` message of a structural conflict.  Go renders the tag
with `%q`; for the alphanumeric tags the parser produces this is plain
double-quoting, which is what is embedded (claims never inspect messages). -/
def errMessage : TransformError → Str
  | .duplicateSourceTag tag =>
    str "structural conflict: duplicate source tag " ++ '"' :: tag ++ ['"']
  | .multipleMoveTargets tag =>
    str "structural conflict: multiple move targets for tag " ++ '"' :: tag ++ ['"']

/-- `editml.TransformCleanView`: wraps the internal transformer, converting a
critical error into a single error-severity issue with placeholder position. -/
def TransformCleanView (fuel : Nat) (nodes : List Node) : Str × List Issue :=
  match TransformToCleanView fuel nodes with
  | (t, some e) =>
    (t, [⟨str "Transformation error: " ++ errMessage e, 0, 0, SeverityError⟩])
  | (t, none) => (t, [])

/-! ## Observations of a node sequence used to state the claims -/

/-- The tags of the `StructuralSource` nodes of a sequence, in order,
independent of operation. -/
def sourceTags (nodes : List Node) : List Str :=
  nodes.filterMap fun n =>
    match n with
    | .structuralSource _ tag _ => some tag
    | _ => none

/-- The tags of the `StructuralTarget` nodes of a sequence whose operation is
`opN`. -/
def opTargetTags (opN : Str) (nodes : List Node) : List Str :=
  nodes.filterMap fun n =>
    match n with
    | .structuralTarget op tag => if op == opN then some tag else none
    | _ => none

/-- The tags of the move-operation `StructuralTarget` nodes of a sequence. -/
def moveTargetTags (nodes : List Node) : List Str := opTargetTags OperationMove nodes

/-- The tags of the copy-operation `StructuralTarget` nodes of a sequence. -/
def copyTargetTags (nodes : List Node) : List Str := opTargetTags OperationCopy nodes

/-- Number of move-operation targets carrying `tag`. -/
def moveTargetCount (nodes : List Node) (tag : Str) : Nat :=
  (moveTargetTags nodes).count tag

/-- Number of copy-operation targets carrying `tag`. -/
def copyTargetCount (nodes : List Node) (tag : Str) : Nat :=
  (copyTargetTags nodes).count tag

/-! ## Pre-scan error characterisation (claims C1, C10) -/

def exIsError : Except ε α → Bool
  | .error _ => true
  | .ok _ => false

def memStr (t : Str) : List Str → Bool
  | [] => false
  | x :: rest => x == t || memStr t rest

/-- Running duplicate detection against an accumulated set of seen tags. -/
def dupFrom (seen : List Str) : List Str → Bool
  | [] => false
  | t :: rest => memStr t seen || dupFrom (t :: seen) rest

/-- Running move-target-counter overflow detection. -/
def mtFrom (cs : CMap) : List Str → Bool
  | [] => false
  | t :: rest =>
    decide (0 < clookupD cs t) || mtFrom (cinsert cs t (clookupD cs t + 1)) rest

theorem memStr_iff (t : Str) (l : List Str) : memStr t l = true ↔ t ∈ l := by
  induction l with
  | nil => simp [memStr]
  | cons x rest ih =>
    simp only [memStr, Bool.or_eq_true, beq_iff_eq, ih, List.mem_cons]
    constructor
    · rintro (rfl | h)
      · exact Or.inl rfl
      · exact Or.inr h
    · rintro (rfl | h)
      · exact Or.inl rfl
      · exact Or.inr h

theorem alookup_isSome_keys {α : Type} (k : Str) (ss : List (Str × α)) :
    (alookup k ss).isSome = memStr k (ss.map Prod.fst) := by
  induction ss with
  | nil => rfl
  | cons hd tl ih =>
    obtain ⟨k2, v⟩ := hd
    simp only [alookup, List.map_cons, memStr]
    by_cases h : k2 = k
    · simp [h]
    · have hb : (k2 == k) = false := by simp [h]
      simp [hb, ih]

theorem memStr_append (x : Str) (k1 k2 : List Str) :
    memStr x (k1 ++ k2) = (memStr x k1 || memStr x k2) := by
  induction k1 with
  | nil => simp [memStr]
  | cons y rest ih => simp [memStr, ih, Bool.or_assoc]

theorem dupFrom_congr (r : List Str) :
    ∀ k1 k2 : List Str, (∀ x, memStr x k1 = memStr x k2) → dupFrom k1 r = dupFrom k2 r := by
  induction r with
  | nil => intro k1 k2 _; rfl
  | cons t rest ih =>
    intro k1 k2 h
    simp only [dupFrom, h t]
    congr 1
    refine ih (t :: k1) (t :: k2) (fun x => ?_)
    simp only [memStr, h x]

theorem clookupD_cinsert (cs : CMap) (tag : Str) (c : Nat) (x : Str) :
    clookupD (cinsert cs tag c) x = if tag = x then c else clookupD cs x := by
  induction cs with
  | nil =>
    by_cases h : tag = x <;> simp [cinsert, clookupD, alookup, h]
  | cons hd tl ih =>
    obtain ⟨k, v⟩ := hd
    by_cases hk : k = tag
    · subst hk
      by_cases hx : k = x <;> simp [cinsert, clookupD, alookup, hx]
    · by_cases hx : k = x
      · subst hx
        have : ¬ tag = k := fun h => hk h.symm
        simp [cinsert, clookupD, alookup, hk, this]
      · simp only [cinsert, beq_iff_eq, hk, if_false]
        simp only [clookupD, alookup, beq_iff_eq, hx, if_false] at ih ⊢
        exact ih

/-- The pre-scan fails exactly when the remaining nodes introduce a source tag
already seen (or repeated) or push a move-target counter past one. -/
theorem prescan_error_char (bt : Str → Str → Str → Str) :
    ∀ (l : List Node) (ss : SMap) (ts : TMap) (cs : CMap),
      exIsError (prescan bt l ss ts cs) =
        (dupFrom (ss.map Prod.fst) (sourceTags l) || mtFrom cs (moveTargetTags l)) := by
  intro l
  induction l with
  | nil => intro ss ts cs; rfl
  | cons n rest ih =>
    intro ss ts cs
    cases n with
    | text t => simpa [prescan, sourceTags, moveTargetTags, opTargetTags, List.filterMap_cons] using ih ss ts cs
    | inlineEdit et c id =>
      simpa [prescan, sourceTags, moveTargetTags, opTargetTags, List.filterMap_cons] using ih ss ts cs
    | structuralSource op tag bc =>
      have hsrc : sourceTags (Node.structuralSource op tag bc :: rest) = tag :: sourceTags rest := by
        simp [sourceTags, List.filterMap_cons]
      have htgt : moveTargetTags (Node.structuralSource op tag bc :: rest) = moveTargetTags rest := by
        simp [moveTargetTags, opTargetTags, List.filterMap_cons]
      rw [hsrc, htgt]
      by_cases h : (alookup tag ss).isSome
      · have hm : memStr tag (ss.map Prod.fst) = true := by
          rw [← alookup_isSome_keys]; exact h
        simp [prescan, h, dupFrom, hm, exIsError]
      · have hm : memStr tag (ss.map Prod.fst) = false := by
          rw [← alookup_isSome_keys]; simpa using h
        have hb : (alookup tag ss).isSome = false := by simpa using h
        have hkeys : ∀ x,
            memStr x ((ss ++ [(tag, (⟨op, tag, bc, bt op bc tag, false⟩ : SourceDetail))]).map Prod.fst)
              = memStr x (tag :: ss.map Prod.fst) := by
          intro x
          rw [List.map_append, memStr_append]
          simp only [List.map_cons, List.map_nil, memStr, Bool.or_false]
          exact Bool.or_comm _ _
        simp only [prescan, hb, Bool.false_eq_true, if_false]
        rw [ih, dupFrom_congr (sourceTags rest) _ _ hkeys]
        simp [dupFrom, hm]
    | structuralTarget op tag =>
      have hsrc : sourceTags (Node.structuralTarget op tag :: rest) = sourceTags rest := by
        simp [sourceTags, List.filterMap_cons]
      rw [hsrc]
      by_cases hop : op = OperationMove
      · subst hop
        have htgt : moveTargetTags (Node.structuralTarget OperationMove tag :: rest)
            = tag :: moveTargetTags rest := by
          simp [moveTargetTags, opTargetTags, List.filterMap_cons]
        rw [htgt]
        by_cases hc : 0 < clookupD cs tag
        · have h1 : 1 < clookupD cs tag + 1 := by omega
          simp [prescan, h1, mtFrom, hc, exIsError]
        · have h1 : ¬ 1 < clookupD cs tag + 1 := by omega
          simp only [prescan, beq_self_eq_true, if_true, h1, if_false]
          rw [ih]
          simp [mtFrom, hc]
      · have hbeq : (op == OperationMove) = false := by simp [hop]
        have htgt : moveTargetTags (Node.structuralTarget op tag :: rest)
            = moveTargetTags rest := by
          simp [moveTargetTags, opTargetTags, List.filterMap_cons, hop]
        rw [htgt]
        simp only [prescan, hbeq, Bool.false_eq_true, if_false]
        exact ih ss _ cs

theorem goTransform_error (bt : Str → Str → Str → Str) (nodes : List Node) :
    (goTransform bt nodes).2.isSome = exIsError (prescan bt nodes [] [] []) := by
  unfold goTransform
  cases h : prescan bt nodes [] [] [] with
  | error e => simp [exIsError]
  | ok s => obtain ⟨ss, ts, cs⟩ := s; simp [exIsError]

theorem dupFrom_iff (l : List Str) :
    ∀ seen : List Str, dupFrom seen l = true ↔ (∃ t ∈ l, t ∈ seen) ∨ ¬ l.Nodup := by
  induction l with
  | nil => intro seen; simp [dupFrom]
  | cons t rest ih =>
    intro seen
    simp only [dupFrom, Bool.or_eq_true, memStr_iff, ih (t :: seen), List.nodup_cons,
      List.mem_cons]
    constructor
    · rintro (h | ⟨x, hx, (rfl | hxs)⟩ | h)
      · exact Or.inl ⟨t, Or.inl rfl, h⟩
      · exact Or.inr (fun hn => hn.1 hx)
      · exact Or.inl ⟨x, Or.inr hx, hxs⟩
      · exact Or.inr (fun hn => h hn.2)
    · rintro (⟨x, (rfl | hx), hxs⟩ | h)
      · exact Or.inl hxs
      · exact Or.inr (Or.inl ⟨x, hx, Or.inr hxs⟩)
      · by_cases ht : t ∈ rest
        · exact Or.inr (Or.inl ⟨t, ht, Or.inl rfl⟩)
        · exact Or.inr (Or.inr (fun hn => h ⟨ht, hn⟩))

theorem mtFrom_iff (l : List Str) :
    ∀ cs : CMap, mtFrom cs l = true ↔ (∃ t ∈ l, 0 < clookupD cs t) ∨ ¬ l.Nodup := by
  induction l with
  | nil => intro cs; simp [mtFrom]
  | cons t rest ih =>
    intro cs
    have hlk : ∀ x, 0 < clookupD (cinsert cs t (clookupD cs t + 1)) x ↔ (t = x ∨ 0 < clookupD cs x) := by
      intro x
      rw [clookupD_cinsert]
      by_cases h : t = x
      · simp [h]
      · simp [h]
    simp only [mtFrom, Bool.or_eq_true, decide_eq_true_eq, ih, List.nodup_cons, List.mem_cons]
    constructor
    · rintro (h | ⟨x, hx, hpos⟩ | h)
      · exact Or.inl ⟨t, Or.inl rfl, h⟩
      · rcases (hlk x).1 hpos with rfl | hp
        · exact Or.inr (fun hn => hn.1 hx)
        · exact Or.inl ⟨x, Or.inr hx, hp⟩
      · exact Or.inr (fun hn => h hn.2)
    · rintro (⟨x, (rfl | hx), hpos⟩ | h)
      · exact Or.inl hpos
      · exact Or.inr (Or.inl ⟨x, hx, (hlk x).2 (Or.inr hpos)⟩)
      · by_cases ht : t ∈ rest
        · exact Or.inr (Or.inl ⟨t, ht, (hlk t).2 (Or.inl rfl)⟩)
        · exact Or.inr (Or.inr (fun hn => h ⟨ht, hn⟩))

theorem transform_error_iff (fuel : Nat) (nodes : List Node) :
    (TransformToCleanView fuel nodes).2.isSome = true ↔
      ¬ (sourceTags nodes).Nodup ∨ ¬ (moveTargetTags nodes).Nodup := by
  rw [transform_eq_go, goTransform_error, prescan_error_char]
  simp only [Bool.or_eq_true]
  rw [dupFrom_iff, mtFrom_iff]
  simp [clookupD, alookup]

/-- The issues `TransformCleanView` reports contain an error-severity issue
exactly when the internal transformer returned an error. -/
theorem transformCleanView_issue_iff (fuel : Nat) (nodes : List Node) :
    (∃ i ∈ (TransformCleanView fuel nodes).2, i.severity = SeverityError) ↔
      (TransformToCleanView fuel nodes).2.isSome = true := by
  unfold TransformCleanView
  cases h : TransformToCleanView fuel nodes with
  | mk t e =>
    cases e with
    | none => simp
    | some err => simp

/-- C1: the whole call fails (with the single document-level error-severity
issue) iff the node sequence has two sources sharing a tag or more than one
move-operation target for one tag; in every other situation the call succeeds
(problems are instead substituted locally into the output by `renderNode`). -/
theorem cleanView_fails_iff_conflict (fuel : Nat) (nodes : List Node) :
    (∃ i ∈ (TransformCleanView fuel nodes).2, i.severity = SeverityError) ↔
      ¬ (sourceTags nodes).Nodup ∨ ¬ (moveTargetTags nodes).Nodup := by
  rw [transformCleanView_issue_iff, transform_error_iff]

/-- C10: when the transformation reports an error-severity issue, the output
string is exactly empty. -/
theorem cleanView_error_empty_output (fuel : Nat) (nodes : List Node)
    (h : ∃ i ∈ (TransformCleanView fuel nodes).2, i.severity = SeverityError) :
    (TransformCleanView fuel nodes).1 = [] := by
  rw [transformCleanView_issue_iff] at h
  rw [transform_eq_go] at h
  rw [goTransform_error] at h
  unfold TransformCleanView
  rw [transform_eq_go]
  unfold goTransform
  cases hp : prescan (btOf fuel) nodes [] [] [] with
  | error e => simp
  | ok s =>
    rw [hp] at h
    simp [exIsError] at h

/-- Witness for C10 at a concrete duplicate-tag document. -/
theorem cleanView_error_empty_output_witness :
    (TransformCleanView 1
        [Node.structuralSource OperationMove (str "dup") (str "a"),
         Node.structuralSource OperationCopy (str "dup") (str "b")]).1 = [] :=
  cleanView_error_empty_output 1 _ (by decide)

/-! ## Pre-scan structural invariants (claims C3, C4) -/

/-- The target details recorded for tag `x`, in document order. -/
def targetsIn (l : List Node) (x : Str) : List TargetDetail :=
  l.filterMap fun n =>
    match n with
    | .structuralTarget op tag => if tag == x then some ⟨op, tag⟩ else none
    | _ => none

/-- The target-list map entry for a tag, with the empty default. -/
def tlookup (ts : TMap) (x : Str) : List TargetDetail := (alookup x ts).getD []

theorem alookup_append_left {α : Type} (k : Str) (v : α) (l1 l2 : List (Str × α))
    (h : alookup k l1 = some v) : alookup k (l1 ++ l2) = some v := by
  induction l1 with
  | nil => simp [alookup] at h
  | cons hd tl ih =>
    obtain ⟨k2, v2⟩ := hd
    by_cases hk : k2 = k
    · simp [alookup, hk] at h ⊢; exact h
    · simp [alookup, hk] at h ⊢; exact ih h

theorem alookup_append_right {α : Type} (k : Str) (l1 l2 : List (Str × α))
    (h : alookup k l1 = none) : alookup k (l1 ++ l2) = alookup k l2 := by
  induction l1 with
  | nil => simp
  | cons hd tl ih =>
    obtain ⟨k2, v2⟩ := hd
    by_cases hk : k2 = k
    · simp [alookup, hk] at h
    · simp [alookup, hk] at h ⊢; exact ih h

/-- Entries of the source map survive the rest of the scan unchanged. -/
theorem prescan_mono (bt : Str → Str → Str → Str) :
    ∀ (l : List Node) (ss : SMap) (ts : TMap) (cs : CMap) (ss2 : SMap) (ts2 : TMap) (cs2 : CMap),
      prescan bt l ss ts cs = .ok (ss2, ts2, cs2) →
      ∀ k v, alookup k ss = some v → alookup k ss2 = some v := by
  intro l
  induction l with
  | nil =>
    intro ss ts cs ss2 ts2 cs2 h k v hk
    simp only [prescan, Except.ok.injEq, Prod.mk.injEq] at h
    obtain ⟨rfl, rfl, rfl⟩ := h
    exact hk
  | cons n rest ih =>
    intro ss ts cs ss2 ts2 cs2 h k v hk
    cases n with
    | text t => exact ih _ _ _ _ _ _ (by simpa [prescan] using h) k v hk
    | inlineEdit et c id => exact ih _ _ _ _ _ _ (by simpa [prescan] using h) k v hk
    | structuralSource op tag bc =>
      by_cases hdup : (alookup tag ss).isSome
      · simp [prescan, hdup] at h
      · have hb : (alookup tag ss).isSome = false := by simpa using hdup
        simp only [prescan, hb, Bool.false_eq_true, if_false] at h
        exact ih _ _ _ _ _ _ h k v (alookup_append_left k v ss _ hk)
    | structuralTarget op tag =>
      by_cases hop : op = OperationMove
      · subst hop
        by_cases h1 : 1 < clookupD cs tag + 1
        · simp [prescan, h1] at h
        · simp only [prescan, beq_self_eq_true, if_true, h1, if_false] at h
          exact ih _ _ _ _ _ _ h k v hk
      · have hbeq : (op == OperationMove) = false := by simp [hop]
        simp only [prescan, hbeq, Bool.false_eq_true, if_false] at h
        exact ih _ _ _ _ _ _ h k v hk

/-- A source node of the scanned sequence ends up in the source map with its
own fields, a block pre-transformed by `bt`, and the mark cleared. -/
theorem prescan_source_detail (bt : Str → Str → Str → Str) :
    ∀ (l : List Node) (ss : SMap) (ts : TMap) (cs : CMap) (ss2 : SMap) (ts2 : TMap) (cs2 : CMap),
      prescan bt l ss ts cs = .ok (ss2, ts2, cs2) →
      ∀ op tag bc, Node.structuralSource op tag bc ∈ l →
      alookup tag ss2 = some ⟨op, tag, bc, bt op bc tag, false⟩ := by
  intro l
  induction l with
  | nil => intro ss ts cs ss2 ts2 cs2 _ op tag bc hmem; simp at hmem
  | cons n rest ih =>
    intro ss ts cs ss2 ts2 cs2 h op tag bc hmem
    rcases List.mem_cons.1 hmem with heq | htail
    · subst heq
      by_cases hdup : (alookup tag ss).isSome
      · simp [prescan, hdup] at h
      · have hb : (alookup tag ss).isSome = false := by simpa using hdup
        have hnone : alookup tag ss = none := by
          cases halk : alookup tag ss
          · rfl
          · rw [halk] at hb; simp at hb
        simp only [prescan, hb, Bool.false_eq_true, if_false] at h
        refine prescan_mono bt rest _ _ _ _ _ _ h tag _ ?_
        rw [alookup_append_right tag ss _ hnone]
        simp [alookup]
    · cases n with
      | text t => exact ih _ _ _ _ _ _ (by simpa [prescan] using h) op tag bc htail
      | inlineEdit et c id => exact ih _ _ _ _ _ _ (by simpa [prescan] using h) op tag bc htail
      | structuralSource op2 tag2 bc2 =>
        by_cases hdup : (alookup tag2 ss).isSome
        · simp [prescan, hdup] at h
        · have hb : (alookup tag2 ss).isSome = false := by simpa using hdup
          simp only [prescan, hb, Bool.false_eq_true, if_false] at h
          exact ih _ _ _ _ _ _ h op tag bc htail
      | structuralTarget op2 tag2 =>
        by_cases hop : op2 = OperationMove
        · subst hop
          by_cases h1 : 1 < clookupD cs tag2 + 1
          · simp [prescan, h1] at h
          · simp only [prescan, beq_self_eq_true, if_true, h1, if_false] at h
            exact ih _ _ _ _ _ _ h op tag bc htail
        · have hbeq : (op2 == OperationMove) = false := by simp [hop]
          simp only [prescan, hbeq, Bool.false_eq_true, if_false] at h
          exact ih _ _ _ _ _ _ h op tag bc htail

/-- The final move-target counters count the move-operation targets. -/
theorem prescan_counts (bt : Str → Str → Str → Str) :
    ∀ (l : List Node) (ss : SMap) (ts : TMap) (cs : CMap) (ss2 : SMap) (ts2 : TMap) (cs2 : CMap),
      prescan bt l ss ts cs = .ok (ss2, ts2, cs2) →
      ∀ x, clookupD cs2 x = clookupD cs x + (moveTargetTags l).count x := by
  intro l
  induction l with
  | nil =>
    intro ss ts cs ss2 ts2 cs2 h x
    simp only [prescan, Except.ok.injEq, Prod.mk.injEq] at h
    obtain ⟨rfl, rfl, rfl⟩ := h
    simp [moveTargetTags, opTargetTags]
  | cons n rest ih =>
    intro ss ts cs ss2 ts2 cs2 h x
    cases n with
    | text t =>
      have := ih _ _ _ _ _ _ (by simpa [prescan] using h) x
      simpa [moveTargetTags, opTargetTags, List.filterMap_cons] using this
    | inlineEdit et c id =>
      have := ih _ _ _ _ _ _ (by simpa [prescan] using h) x
      simpa [moveTargetTags, opTargetTags, List.filterMap_cons] using this
    | structuralSource op tag bc =>
      by_cases hdup : (alookup tag ss).isSome
      · simp [prescan, hdup] at h
      · have hb : (alookup tag ss).isSome = false := by simpa using hdup
        simp only [prescan, hb, Bool.false_eq_true, if_false] at h
        have := ih _ _ _ _ _ _ h x
        simpa [moveTargetTags, opTargetTags, List.filterMap_cons] using this
    | structuralTarget op tag =>
      by_cases hop : op = OperationMove
      · subst hop
        by_cases h1 : 1 < clookupD cs tag + 1
        · simp [prescan, h1] at h
        · simp only [prescan, beq_self_eq_true, if_true, h1, if_false] at h
          have := ih _ _ _ _ _ _ h x
          rw [clookupD_cinsert] at this
          have hmt : moveTargetTags (Node.structuralTarget OperationMove tag :: rest)
              = tag :: moveTargetTags rest := by
            simp [moveTargetTags, opTargetTags, List.filterMap_cons]
          rw [hmt, List.count_cons, this]
          by_cases hx : tag = x
          · simp [hx]; omega
          · have : ¬ x = tag := fun hc => hx hc.symm
            simp [hx, this]
      · have hbeq : (op == OperationMove) = false := by simp [hop]
        simp only [prescan, hbeq, Bool.false_eq_true, if_false] at h
        have := ih _ _ _ _ _ _ h x
        have hmt : moveTargetTags (Node.structuralTarget op tag :: rest)
            = moveTargetTags rest := by
          simp [moveTargetTags, opTargetTags, List.filterMap_cons, hop]
        rw [hmt]
        exact this

theorem tlookup_tinsert (ts : TMap) (tag : Str) (d : TargetDetail) (x : Str) :
    tlookup (tinsert ts tag d) x = if tag = x then tlookup ts x ++ [d] else tlookup ts x := by
  induction ts with
  | nil =>
    by_cases h : tag = x <;> simp [tinsert, tlookup, alookup, h]
  | cons hd tl ih =>
    obtain ⟨k, v⟩ := hd
    by_cases hk : k = tag
    · subst hk
      by_cases hx : k = x <;> simp [tinsert, tlookup, alookup, hx]
    · by_cases hx : k = x
      · subst hx
        have hne : ¬ tag = k := fun hc => hk hc.symm
        simp [tinsert, tlookup, alookup, hk, hne]
      · simp only [tinsert, beq_iff_eq, hk, if_false]
        simp only [tlookup, alookup, beq_iff_eq, hx, if_false] at ih ⊢
        exact ih

/-- The final target map collects the target details per tag, in order. -/
theorem prescan_targets (bt : Str → Str → Str → Str) :
    ∀ (l : List Node) (ss : SMap) (ts : TMap) (cs : CMap) (ss2 : SMap) (ts2 : TMap) (cs2 : CMap),
      prescan bt l ss ts cs = .ok (ss2, ts2, cs2) →
      ∀ x, tlookup ts2 x = tlookup ts x ++ targetsIn l x := by
  intro l
  induction l with
  | nil =>
    intro ss ts cs ss2 ts2 cs2 h x
    simp only [prescan, Except.ok.injEq, Prod.mk.injEq] at h
    obtain ⟨rfl, rfl, rfl⟩ := h
    simp [targetsIn]
  | cons n rest ih =>
    intro ss ts cs ss2 ts2 cs2 h x
    cases n with
    | text t =>
      have := ih _ _ _ _ _ _ (by simpa [prescan] using h) x
      simpa [targetsIn, List.filterMap_cons] using this
    | inlineEdit et c id =>
      have := ih _ _ _ _ _ _ (by simpa [prescan] using h) x
      simpa [targetsIn, List.filterMap_cons] using this
    | structuralSource op tag bc =>
      by_cases hdup : (alookup tag ss).isSome
      · simp [prescan, hdup] at h
      · have hb : (alookup tag ss).isSome = false := by simpa using hdup
        simp only [prescan, hb, Bool.false_eq_true, if_false] at h
        have := ih _ _ _ _ _ _ h x
        simpa [targetsIn, List.filterMap_cons] using this
    | structuralTarget op tag =>
      have hti : targetsIn (Node.structuralTarget op tag :: rest) x
          = if tag = x then (⟨op, tag⟩ : TargetDetail) :: targetsIn rest x
            else targetsIn rest x := by
        by_cases hx : tag = x <;> simp [targetsIn, List.filterMap_cons, hx]
      have step : ∀ (cs3 : CMap), prescan bt rest ss (tinsert ts tag ⟨op, tag⟩) cs3 = .ok (ss2, ts2, cs2) →
          tlookup ts2 x = tlookup ts x ++ targetsIn (Node.structuralTarget op tag :: rest) x := by
        intro cs3 h3
        have := ih _ _ _ _ _ _ h3 x
        rw [this, tlookup_tinsert, hti]
        by_cases hx : tag = x
        · simp [hx]
        · simp [hx]
      by_cases hop : op = OperationMove
      · subst hop
        by_cases h1 : 1 < clookupD cs tag + 1
        · simp [prescan, h1] at h
        · simp only [prescan, beq_self_eq_true, if_true, h1, if_false] at h
          exact step _ h
      · have hbeq : (op == OperationMove) = false := by simp [hop]
        simp only [prescan, hbeq, Bool.false_eq_true, if_false] at h
        exact step _ h

/-- Per-operation target-tag counts agree with the recorded target details. -/
theorem count_opTargetTags (opN : Str) :
    ∀ (l : List Node) (x : Str),
      (opTargetTags opN l).count x
        = (targetsIn l x).countP (fun td => td.operation == opN) := by
  intro l
  induction l with
  | nil => intro x; simp [opTargetTags, targetsIn]
  | cons n rest ih =>
    intro x
    cases n with
    | text t => simpa [opTargetTags, targetsIn, List.filterMap_cons] using ih x
    | inlineEdit et c id => simpa [opTargetTags, targetsIn, List.filterMap_cons] using ih x
    | structuralSource op tag bc => simpa [opTargetTags, targetsIn, List.filterMap_cons] using ih x
    | structuralTarget op tag =>
      have h1 : opTargetTags opN (Node.structuralTarget op tag :: rest)
          = if op = opN then tag :: opTargetTags opN rest else opTargetTags opN rest := by
        by_cases hop : op = opN <;> simp [opTargetTags, List.filterMap_cons, hop]
      have h2 : targetsIn (Node.structuralTarget op tag :: rest) x
          = if tag = x then (⟨op, tag⟩ : TargetDetail) :: targetsIn rest x
            else targetsIn rest x := by
        by_cases hx : tag = x <;> simp [targetsIn, List.filterMap_cons, hx]
      rw [h1, h2]
      by_cases hop : op = opN
      · subst hop
        by_cases hx : tag = x
        · subst hx
          simp [List.count_cons, List.countP_cons, ih]
        · have hxt : ¬ x = tag := fun hc => hx hc.symm
          simp [List.count_cons, List.countP_cons, ih, hx, hxt]
      · have hbeq : (op == opN) = false := by simp [hop]
        by_cases hx : tag = x
        · subst hx
          simp [List.countP_cons, ih, hop, hbeq]
        · simp [ih, hop, hx]

theorem alookup_markMoves (ts : TMap) (cs : CMap) :
    ∀ (ss : SMap) (k : Str),
      alookup k (markMoves ts cs ss) = (alookup k ss).map (markOne ts cs k) := by
  intro ss
  induction ss with
  | nil => intro k; rfl
  | cons hd tl ih =>
    intro k
    obtain ⟨k2, v⟩ := hd
    by_cases hk : k2 = k
    · subst hk; simp [markMoves, alookup]
    · simp only [markMoves, List.map_cons, alookup, beq_iff_eq, hk, if_false] at ih ⊢
      exact ih k

theorem alookup_of_tlookup_ne_nil (ts : TMap) (x : Str) (h : tlookup ts x ≠ []) :
    alookup x ts = some (tlookup ts x) := by
  cases halk : alookup x ts with
  | none => exact absurd (by simp [tlookup, halk]) h
  | some v => simp [tlookup, halk]

/-- C3: a move source whose tag has exactly one move-operation target is
marked consumed; at its own position the renderer emits nothing and at the
move target's position it emits the pre-transformed block. -/
theorem moveConsumption (fuel : Nat) (nodes : List Node) (ss : SMap) (ts : TMap) (cs : CMap)
    (op tag bc : Str)
    (hscan : scanResult fuel nodes = .ok (ss, ts, cs))
    (hmem : Node.structuralSource op tag bc ∈ nodes)
    (hop : op = OperationMove)
    (hcount : moveTargetCount nodes tag = 1) :
    alookup tag (markMoves ts cs ss)
        = some ⟨op, tag, bc, btOf fuel op bc tag, true⟩ ∧
      renderNode (markMoves ts cs ss) ts (Node.structuralSource op tag bc) = [] ∧
      renderNode (markMoves ts cs ss) ts (Node.structuralTarget OperationMove tag)
        = btOf fuel op bc tag ∧
      (TransformToCleanView fuel nodes).1
        = joinStr (nodes.map (renderNode (markMoves ts cs ss) ts)) := by
  subst hop
  have hd : alookup tag ss = some ⟨OperationMove, tag, bc, btOf fuel OperationMove bc tag, false⟩ :=
    prescan_source_detail (btOf fuel) nodes [] [] [] ss ts cs hscan _ tag bc hmem
  have hcnt : clookupD cs tag = 1 := by
    have := prescan_counts (btOf fuel) nodes [] [] [] ss ts cs hscan tag
    rw [this]
    simpa [clookupD, alookup, moveTargetCount] using hcount
  have htl : tlookup ts tag = targetsIn nodes tag := by
    have := prescan_targets (btOf fuel) nodes [] [] [] ss ts cs hscan tag
    simpa [tlookup, alookup] using this
  have hcp : 0 < (targetsIn nodes tag).countP (fun td => td.operation == OperationMove) := by
    have := count_opTargetTags OperationMove nodes tag
    have hmc : moveTargetCount nodes tag = (moveTargetTags nodes).count tag := rfl
    rw [hmc, moveTargetTags] at hcount
    omega
  obtain ⟨td, htd, htdop⟩ := List.countP_pos_iff.1 hcp
  have hne : targetsIn nodes tag ≠ [] := by
    intro hnil; rw [hnil] at htd; simp at htd
  have hts : alookup tag ts = some (targetsIn nodes tag) := by
    have := alookup_of_tlookup_ne_nil ts tag (by rw [htl]; exact hne)
    rwa [htl] at this
  have hmark : markOne ts cs tag ⟨OperationMove, tag, bc, btOf fuel OperationMove bc tag, false⟩
      = ⟨OperationMove, tag, bc, btOf fuel OperationMove bc tag, true⟩ := by
    have hanym : (targetsIn nodes tag).any (fun t => t.operation == OperationMove) = true :=
      List.any_eq_true.2 ⟨td, htd, htdop⟩
    have hemp : (targetsIn nodes tag).isEmpty = false := by
      cases hcase : targetsIn nodes tag with
      | nil => exact absurd hcase hne
      | cons a b => simp
    simp [markOne, hts, hanym, hemp, hcnt]
  have hlk : alookup tag (markMoves ts cs ss)
      = some ⟨OperationMove, tag, bc, btOf fuel OperationMove bc tag, true⟩ := by
    rw [alookup_markMoves, hd]
    simp [hmark]
  refine ⟨hlk, ?_, ?_, ?_⟩
  · simp [renderNode, hlk]
  · by_cases herr : containsERR (btOf fuel OperationMove bc tag) = true
    · simp [renderNode, hlk, herr]
    · have herr2 : containsERR (btOf fuel OperationMove bc tag) = false := by
        simpa using herr
      simp [renderNode, hlk, herr2]
  · rw [transform_eq_go]
    unfold goTransform
    have hsc : prescan (btOf fuel) nodes [] [] [] = .ok (ss, ts, cs) := hscan
    rw [hsc]

/-- C4: a copy source whose tag has at least one copy-operation target renders
its pre-transformed block at its own position, and every copy target of the
tag renders the same block. -/
theorem copyMultiplicity (fuel : Nat) (nodes : List Node) (ss : SMap) (ts : TMap) (cs : CMap)
    (op tag bc : Str)
    (hscan : scanResult fuel nodes = .ok (ss, ts, cs))
    (hmem : Node.structuralSource op tag bc ∈ nodes)
    (hop : op = OperationCopy)
    (hcount : 0 < copyTargetCount nodes tag) :
    alookup tag (markMoves ts cs ss)
        = some ⟨op, tag, bc, btOf fuel op bc tag, false⟩ ∧
      renderNode (markMoves ts cs ss) ts (Node.structuralSource op tag bc)
        = btOf fuel op bc tag ∧
      renderNode (markMoves ts cs ss) ts (Node.structuralTarget OperationCopy tag)
        = btOf fuel op bc tag ∧
      (TransformToCleanView fuel nodes).1
        = joinStr (nodes.map (renderNode (markMoves ts cs ss) ts)) := by
  subst hop
  have hd : alookup tag ss = some ⟨OperationCopy, tag, bc, btOf fuel OperationCopy bc tag, false⟩ :=
    prescan_source_detail (btOf fuel) nodes [] [] [] ss ts cs hscan _ tag bc hmem
  have htl : tlookup ts tag = targetsIn nodes tag := by
    have := prescan_targets (btOf fuel) nodes [] [] [] ss ts cs hscan tag
    simpa [tlookup, alookup] using this
  have hcp : 0 < (targetsIn nodes tag).countP (fun td => td.operation == OperationCopy) := by
    have := count_opTargetTags OperationCopy nodes tag
    have hmc : copyTargetCount nodes tag = (copyTargetTags nodes).count tag := rfl
    rw [hmc, copyTargetTags] at hcount
    omega
  obtain ⟨td, htd, htdop⟩ := List.countP_pos_iff.1 hcp
  have hne : targetsIn nodes tag ≠ [] := by
    intro hnil; rw [hnil] at htd; simp at htd
  have hts : alookup tag ts = some (targetsIn nodes tag) := by
    have := alookup_of_tlookup_ne_nil ts tag (by rw [htl]; exact hne)
    rwa [htl] at this
  have hcm : (OperationCopy == OperationMove) = false := by decide
  have hmark : markOne ts cs tag ⟨OperationCopy, tag, bc, btOf fuel OperationCopy bc tag, false⟩
      = ⟨OperationCopy, tag, bc, btOf fuel OperationCopy bc tag, false⟩ := by
    simp [markOne, hcm]
  have hlk : alookup tag (markMoves ts cs ss)
      = some ⟨OperationCopy, tag, bc, btOf fuel OperationCopy bc tag, false⟩ := by
    rw [alookup_markMoves, hd]
    simp [hmark]
  have hanyc : (targetsIn nodes tag).any (fun t => t.operation == OperationCopy) = true :=
    List.any_eq_true.2 ⟨td, htd, htdop⟩
  refine ⟨hlk, ?_, ?_, ?_⟩
  · by_cases herr : containsERR (btOf fuel OperationCopy bc tag) = true
    · simp [renderNode, hlk, hcm, hts, hanyc, herr]
    · have herr2 : containsERR (btOf fuel OperationCopy bc tag) = false := by
        simpa using herr
      simp [renderNode, hlk, hcm, hts, hanyc, herr2]
  · by_cases herr : containsERR (btOf fuel OperationCopy bc tag) = true
    · simp [renderNode, hlk, hcm, herr]
    · have herr2 : containsERR (btOf fuel OperationCopy bc tag) = false := by
        simpa using herr
      simp [renderNode, hlk, hcm, herr2]
  · rw [transform_eq_go]
    unfold goTransform
    have hsc : prescan (btOf fuel) nodes [] [] [] = .ok (ss, ts, cs) := hscan
    rw [hsc]

/-! ## Escape decoding (claims C5, C6) -/

theorem replace2_cons2_ne (a b c x y : Char) (l : Str) (h : ¬(x = a ∧ y = b)) :
    replace2 a b c (x :: y :: l) = x :: replace2 a b c (y :: l) := by
  have hb : (x == a && y == b) = false := by
    by_cases hx : x = a
    · by_cases hy : y = b
      · exact absurd ⟨hx, hy⟩ h
      · simp [hy]
    · simp [hx]
  simp [replace2, hb]

theorem replace2_cons_not_start (a b c x : Char) (l : Str) (hx : ¬ x = a) :
    replace2 a b c (x :: l) = x :: replace2 a b c l := by
  cases l with
  | nil => rfl
  | cons y ys => exact replace2_cons2_ne a b c x y ys (fun hp => hx hp.1)

/-- C5 counterexample: structural block decoding leaves `\lbrace` verbatim
(the claim asserts it resolves to a bare brace). -/
theorem structuralUnescape_brace_counterexample :
    unescapeStructuralBlockContent [bsC, lbrace] = [bsC, lbrace] ∧
      unescapeStructuralBlockContent [bsC, lbrace] ≠ [lbrace] := by
  decide

/-- C5 amended: structural block decoding resolves only `\\` and `\~`; the
escaped braces `\lbrace`, `\rbrace` are left verbatim wherever they occur. -/
theorem structuralUnescape_amended :
    (∀ s : Str, unescapeStructuralBlockContent (bsC :: lbrace :: s)
        = bsC :: lbrace :: unescapeStructuralBlockContent s) ∧
      (∀ s : Str, unescapeStructuralBlockContent (bsC :: rbrace :: s)
        = bsC :: rbrace :: unescapeStructuralBlockContent s) ∧
      unescapeStructuralBlockContent [bsC, bsC] = [bsC] ∧
      unescapeStructuralBlockContent [bsC, tildeC] = [tildeC] := by
  refine ⟨?_, ?_, by decide, by decide⟩
  · intro s
    unfold unescapeStructuralBlockContent
    rw [replace2_cons2_ne bsC bsC bsC bsC lbrace s (by decide),
      replace2_cons_not_start bsC bsC bsC lbrace s (by decide),
      replace2_cons2_ne bsC tildeC tildeC bsC lbrace _ (by decide),
      replace2_cons_not_start bsC tildeC tildeC lbrace _ (by decide)]
  · intro s
    unfold unescapeStructuralBlockContent
    rw [replace2_cons2_ne bsC bsC bsC bsC rbrace s (by decide),
      replace2_cons_not_start bsC bsC bsC rbrace s (by decide),
      replace2_cons2_ne bsC tildeC tildeC bsC rbrace _ (by decide),
      replace2_cons_not_start bsC tildeC tildeC rbrace _ (by decide)]

/-- Modelled from the spec's single-pass description of escape decoding: one
left-to-right pass over the input; an unconsumed backslash followed by a
character of the context's escape set resolves to that character, with both
characters consumed, and a backslash produced by a resolution is never itself
reconsidered as the start of another escape. -/
def specSinglePass (cset : List Char) : Str → Str
  | x :: y :: rest =>
    if x == bsC && cset.contains y then y :: specSinglePass cset rest
    else x :: specSinglePass cset (y :: rest)
  | l => l

/-- C6 counterexample: on `\\lbrace` the implementation resolves `\\` to a
backslash and then re-decodes that backslash together with the following
brace, returning a bare brace, whereas the claim's single pass keeps the
produced backslash literal. -/
theorem escapeDecode_double_decode_counterexample :
    unescapeInlineContent [bsC, bsC, lbrace] EditTypeAddition = [lbrace] ∧
      specSinglePass [bsC, lbrace, rbrace, plusC] [bsC, bsC, lbrace] = [bsC, lbrace] ∧
      unescapeInlineContent [bsC, bsC, lbrace] EditTypeAddition
        ≠ specSinglePass [bsC, lbrace, rbrace, plusC] [bsC, bsC, lbrace] := by
  decide

/-- C6 amended: decoding is a sequence of global replacements (`\\` first,
then the brace pairs, then the operator pair), so a backslash produced by
resolving `\\` can be consumed again by a later replacement (`\\lbrace`
decodes to a bare brace); the spec's own double-escape test still holds:
`\\\\lbrace` decodes to the two characters `\lbrace`. -/
theorem escapeDecode_amended :
    unescapeInlineContent [bsC, bsC, bsC, bsC, lbrace] EditTypeAddition = [bsC, lbrace] ∧
      unescapeInlineContent [bsC, bsC, lbrace] EditTypeAddition = [lbrace] ∧
      unescapeStructuralBlockContent [bsC, bsC, tildeC] = [tildeC] := by
  decide

/-! ## Editor-id length (claim C7) -/

/-- C7 counterexample: the otherwise well-formed inline span
`\x7b+x+abcdef\x7d` with the 6-character editor id `abcdef` is not recognised
by the matcher; the whole input degrades to a single `Text` node. -/
theorem editorID_long_counterexample :
    ParseEditMLToNodes (lbrace :: str "+x+abcdef" ++ [rbrace])
      = [Node.text (lbrace :: str "+x+abcdef" ++ [rbrace])] := by
  decide

/-- C7 amended: the `editorIDPattern` bound of 1-5 characters is enforced by
the matcher: whenever the alphanumeric run after a closing operator is longer
than five characters, the inline continuation fails at that operator. -/
theorem editorID_long_rejected (s : Str) (c : Char) (j : Nat)
    (h : 5 < alnumRun s (j + 1)) :
    inlineCloserAt s c j = none := by
  unfold inlineCloserAt
  by_cases hc : chAt s j c
  · have hm0 : (alnumRun s (j + 1) == 0) = false := by
      simp only [beq_eq_false_iff_ne, ne_eq]
      omega
    have hm5 : decide (alnumRun s (j + 1) ≤ 5) = false := by
      simp only [decide_eq_false_iff_not, not_le]
      omega
    simp [hc, hm0, hm5]
  · simp [hc]

/-- Witness for the C7 amended theorem at the counterexample input. -/
theorem editorID_long_rejected_witness :
    inlineCloserAt (lbrace :: str "+x+abcdef" ++ [rbrace]) plusC 3 = none :=
  editorID_long_rejected (lbrace :: str "+x+abcdef" ++ [rbrace]) plusC 3 (by decide)

/-- The move-consumption example document `\x7bmove~block~T1\x7dx\x7bmove:T1\x7d`. -/
def mvNodes : List Node :=
  [Node.structuralSource OperationMove (str "T1") (str "block"),
   Node.text (str "x"),
   Node.structuralTarget OperationMove (str "T1")]

def mvSS : SMap := [(str "T1", ⟨OperationMove, str "T1", str "block", str "block", false⟩)]
def mvTS : TMap := [(str "T1", [⟨OperationMove, str "T1"⟩])]
def mvCS : CMap := [(str "T1", 1)]

/-- Witness for C3 on the example document. -/
theorem moveConsumption_witness :
    alookup (str "T1") (markMoves mvTS mvCS mvSS)
        = some ⟨OperationMove, str "T1", str "block",
            btOf 1 OperationMove (str "block") (str "T1"), true⟩ ∧
      renderNode (markMoves mvTS mvCS mvSS) mvTS
          (Node.structuralSource OperationMove (str "T1") (str "block")) = [] ∧
      renderNode (markMoves mvTS mvCS mvSS) mvTS
          (Node.structuralTarget OperationMove (str "T1"))
        = btOf 1 OperationMove (str "block") (str "T1") ∧
      (TransformToCleanView 1 mvNodes).1
        = joinStr (mvNodes.map (renderNode (markMoves mvTS mvCS mvSS) mvTS)) :=
  moveConsumption 1 mvNodes mvSS mvTS mvCS OperationMove (str "T1") (str "block")
    (by rfl) (by decide) rfl (by decide)

/-- The copy-multiplicity example document
`\x7bcopy~X~T2\x7da\x7bcopy:T2\x7db\x7bcopy:T2\x7d`. -/
def cpNodes : List Node :=
  [Node.structuralSource OperationCopy (str "T2") (str "X"),
   Node.text (str "a"),
   Node.structuralTarget OperationCopy (str "T2"),
   Node.text (str "b"),
   Node.structuralTarget OperationCopy (str "T2")]

def cpSS : SMap := [(str "T2", ⟨OperationCopy, str "T2", str "X", str "X", false⟩)]
def cpTS : TMap := [(str "T2", [⟨OperationCopy, str "T2"⟩, ⟨OperationCopy, str "T2"⟩])]
def cpCS : CMap := []

/-! ## Overlap resolution (claim C2)

`resolveSpec` is written from the claim's description of the overlap
resolver: sort the candidates by start offset ascending with ties broken by
the larger end offset, then walk the sorted list with a cursor, discarding any
candidate starting before the cursor, otherwise emitting the gap `Text` node,
the candidate's node, and advancing the cursor to the candidate's end, and
finally emitting one trailing `Text` node for any remainder. -/

def resolveStep (input : Str) (st : List Node × Nat) (m : GenericMatch) : List Node × Nat :=
  if m.startIndex < st.2 then st
  else
    (st.1 ++ (if st.2 < m.startIndex then [Node.text (slice input st.2 m.startIndex)] else [])
        ++ [m.node],
     m.endIndex)

def resolveSpec (input : Str) (cands : List GenericMatch) : List Node :=
  let p := (sortMatches cands).foldl (resolveStep input) ([], 0)
  p.1 ++ (if p.2 < input.length then [Node.text (slice input p.2 input.length)] else [])

/-- The sort order of the claim, as a relation: ascending start offset, ties
broken by preferring the larger end offset. -/
def startEndRel (a b : GenericMatch) : Prop :=
  a.startIndex < b.startIndex ∨ (a.startIndex = b.startIndex ∧ b.endIndex ≤ a.endIndex)

theorem matchLe_iff (a b : GenericMatch) : matchLe a b = true ↔ startEndRel a b := by
  simp [matchLe, startEndRel]

theorem matchLe_total (a b : GenericMatch) (h : ¬ matchLe a b = true) : matchLe b a = true := by
  simp only [matchLe_iff, startEndRel] at h ⊢
  omega

theorem matchLe_trans (a b c : GenericMatch)
    (h1 : matchLe a b = true) (h2 : matchLe b c = true) : matchLe a c = true := by
  simp only [matchLe_iff, startEndRel] at h1 h2 ⊢
  omega

theorem insertM_perm (m : GenericMatch) (l : List GenericMatch) :
    (insertM m l).Perm (m :: l) := by
  induction l with
  | nil => exact List.Perm.refl _
  | cons x xs ih =>
    by_cases h : matchLe m x
    · simp [insertM, h]
    · have hb : matchLe m x = false := by simpa using h
      simp only [insertM, hb, Bool.false_eq_true, if_false]
      exact (ih.cons x).trans (List.Perm.swap m x xs)

theorem sortMatches_perm (l : List GenericMatch) : (sortMatches l).Perm l := by
  induction l with
  | nil => exact List.Perm.refl _
  | cons m ms ih => exact (insertM_perm m (sortMatches ms)).trans (ih.cons m)

theorem pairwise_insertM (m : GenericMatch) (l : List GenericMatch)
    (h : l.Pairwise (fun a b => matchLe a b = true)) :
    (insertM m l).Pairwise (fun a b => matchLe a b = true) := by
  induction l with
  | nil => simp [insertM]
  | cons x xs ih =>
    rcases List.pairwise_cons.1 h with ⟨hx, hxs⟩
    by_cases hm : matchLe m x
    · simp only [insertM, hm, if_true]
      refine List.pairwise_cons.2 ⟨?_, h⟩
      intro y hy
      rcases List.mem_cons.1 hy with rfl | hy2
      · exact hm
      · exact matchLe_trans m x y hm (hx y hy2)
    · have hb : matchLe m x = false := by simpa using hm
      simp only [insertM, hb, Bool.false_eq_true, if_false]
      refine List.pairwise_cons.2 ⟨?_, ih hxs⟩
      intro y hy
      have hy2 : y ∈ m :: xs := (insertM_perm m xs).mem_iff.1 hy
      rcases List.mem_cons.1 hy2 with rfl | hy3
      · exact matchLe_total _ x hm
      · exact hx y hy3

theorem sortMatches_pairwise (l : List GenericMatch) :
    (sortMatches l).Pairwise (fun a b => matchLe a b = true) := by
  induction l with
  | nil => simp [sortMatches]
  | cons m ms ih => exact pairwise_insertM m (sortMatches ms) ih

theorem foldl_interleave (input : Str) :
    ∀ (ms : List GenericMatch) (acc : List Node) (cur : Nat),
      (ms.foldl (resolveStep input) (acc, cur)).1
          ++ (if (ms.foldl (resolveStep input) (acc, cur)).2 < input.length
              then [Node.text (slice input (ms.foldl (resolveStep input) (acc, cur)).2 input.length)]
              else [])
        = acc ++ interleave input ms cur := by
  intro ms
  induction ms with
  | nil => intro acc cur; rfl
  | cons m rest ih =>
    intro acc cur
    by_cases h : m.startIndex < cur
    · have hstep : resolveStep input (acc, cur) m = (acc, cur) := by
        simp [resolveStep, h]
      simp only [List.foldl_cons, hstep, interleave, h, if_true]
      exact ih acc cur
    · have hstep : resolveStep input (acc, cur) m
          = (acc ++ (if cur < m.startIndex then [Node.text (slice input cur m.startIndex)] else [])
              ++ [m.node], m.endIndex) := by
        simp [resolveStep, h]
      simp only [List.foldl_cons, hstep, interleave, h, if_false]
      rw [ih]
      simp [List.append_assoc]

/-- C2: the parser's node sequence is exactly the claim's description: sort
the candidates (the sorted list is a permutation, pairwise ordered by start
ascending with ties preferring the larger end), then cursor-walk with discard,
gap `Text` nodes, and a trailing `Text` remainder. -/
theorem overlapResolution (input : Str) :
    ParseEditMLToNodes input = resolveSpec input (allCandidates input) ∧
      (sortMatches (allCandidates input)).Perm (allCandidates input) ∧
      (sortMatches (allCandidates input)).Pairwise startEndRel := by
  refine ⟨?_, sortMatches_perm _, ?_⟩
  · rw [ParseEditMLToNodes, resolveSpec]
    have := foldl_interleave input (sortMatches (allCandidates input)) [] 0
    simpa using this.symm
  · exact (sortMatches_pairwise (allCandidates input)).imp (fun h => (matchLe_iff _ _).1 h)

/-! ## Round-trip re-emission (claim C9)

`reconstruct` re-emits, along the same cursor walk the parser performs, every
parsed piece in its original literal form: the gap and trailing `Text` nodes
as their text (which is exactly the slice the parser stores in them) and every
accepted markup node as its original source span `input[start:end]`. -/

def reconstruct (input : Str) : List GenericMatch → Nat → Str
  | [], last => slice input last input.length
  | m :: ms, last =>
    if m.startIndex < last then reconstruct input ms last
    else
      slice input last m.startIndex ++ slice input m.startIndex m.endIndex
        ++ reconstruct input ms m.endIndex

/-- The candidate spans are non-overlapping, non-nested and in bounds when
walked from `cur`: each span starts at or after the cursor, is well-formed,
ends within the input, and the remaining spans chain from its end. -/
def chainB (input : Str) (cur : Nat) : List GenericMatch → Bool
  | [] => true
  | m :: ms =>
    decide (cur ≤ m.startIndex) && decide (m.startIndex ≤ m.endIndex)
      && decide (m.endIndex ≤ input.length) && chainB input m.endIndex ms

theorem slice_append_slice (s : Str) (a b c : Nat) (h1 : a ≤ b) (h2 : b ≤ c) :
    slice s a b ++ slice s b c = slice s a c := by
  unfold slice
  rw [show c - a = (b - a) + (c - b) by omega, List.take_add]
  have hd : (s.drop a).drop (b - a) = s.drop b := by
    rw [List.drop_drop]
    congr 1
    omega
  rw [hd]

theorem reconstruct_eq (input : Str) :
    ∀ (ms : List GenericMatch) (cur : Nat), chainB input cur ms = true →
      reconstruct input ms cur = slice input cur input.length := by
  intro ms
  induction ms with
  | nil => intro cur _; rfl
  | cons m rest ih =>
    intro cur h
    simp only [chainB, Bool.and_eq_true, decide_eq_true_eq] at h
    obtain ⟨⟨⟨h1, h2⟩, h3⟩, h4⟩ := h
    have hlt : ¬ m.startIndex < cur := by omega
    simp only [reconstruct, hlt, if_false]
    rw [ih m.endIndex h4, List.append_assoc,
      slice_append_slice input m.startIndex m.endIndex input.length h2 h3,
      slice_append_slice input cur m.startIndex input.length h1 (by omega)]

/-- C9: when the candidate spans are non-overlapping, non-nested and in
bounds, re-emitting every parsed piece in its original literal form along the
parser's walk reconstructs the input exactly. -/
theorem roundTripMarkupView (input : Str)
    (h : chainB input 0 (sortMatches (allCandidates input)) = true) :
    reconstruct input (sortMatches (allCandidates input)) 0 = input := by
  rw [reconstruct_eq input _ 0 h]
  unfold slice
  simp

/-- Witness for C9 on `a\x7b+b+\x7dc`. -/
theorem roundTripMarkupView_witness :
    reconstruct (str "a" ++ lbrace :: str "+b+" ++ rbrace :: str "c")
        (sortMatches (allCandidates (str "a" ++ lbrace :: str "+b+" ++ rbrace :: str "c"))) 0
      = str "a" ++ lbrace :: str "+b+" ++ rbrace :: str "c" :=
  roundTripMarkupView (str "a" ++ lbrace :: str "+b+" ++ rbrace :: str "c") (by decide)

/-- Witness for C4 on the example document (whose Clean View is `XaXbX`:
the block renders at the source and at both copy targets). -/
theorem copyMultiplicity_witness :
    alookup (str "T2") (markMoves cpTS cpCS cpSS)
        = some ⟨OperationCopy, str "T2", str "X",
            btOf 1 OperationCopy (str "X") (str "T2"), false⟩ ∧
      renderNode (markMoves cpTS cpCS cpSS) cpTS
          (Node.structuralSource OperationCopy (str "T2") (str "X"))
        = btOf 1 OperationCopy (str "X") (str "T2") ∧
      renderNode (markMoves cpTS cpCS cpSS) cpTS
          (Node.structuralTarget OperationCopy (str "T2"))
        = btOf 1 OperationCopy (str "X") (str "T2") ∧
      (TransformToCleanView 1 cpNodes).1
        = joinStr (cpNodes.map (renderNode (markMoves cpTS cpCS cpSS) cpTS)) :=
  copyMultiplicity 1 cpNodes cpSS cpTS cpCS OperationCopy (str "T2") (str "X")
    (by rfl) (by decide) rfl (by decide)

/-! ## Termination of the structural recursion (claim C8)

The transformer re-enters the parser on each structural block's content.  The
key fact is that a captured block content can never contain a complete
structural terminator `~TAG\x7d`: the lazy content group stops at the first
such terminator, and the two escape replacements cannot manufacture one.
Hence re-parsing a block's content yields no `StructuralSource` nodes, the
recursion reaches depth at most two, and fuel `2` is a fixed point of
`TransformToCleanView` on every node sequence. -/

/-- The characters form a non-empty alphanumeric run immediately followed by a
closing brace, starting at the head. -/
def alnumThenBrace : Str → Bool
  | [] => false
  | x :: rest => isAlnumChar x && (rest.head? == some rbrace || alnumThenBrace rest)

/-- The string starts with a structural terminator: a tilde, then a non-empty
alphanumeric tag, then a closing brace. -/
def startsTerm : Str → Bool
  | [] => false
  | x :: rest => x == tildeC && alnumThenBrace rest

/-- Some suffix starts with a structural terminator. -/
def hasTerm : Str → Bool
  | [] => false
  | l@(_ :: rest) => startsTerm l || hasTerm rest

theorem hasTerm_iff (l : Str) : hasTerm l = true ↔ ∃ r, startsTerm (l.drop r) = true := by
  induction l with
  | nil => simp [hasTerm, startsTerm]
  | cons x rest ih =>
    simp only [hasTerm, Bool.or_eq_true, ih]
    constructor
    · rintro (h | ⟨r, hr⟩)
      · exact ⟨0, by simpa using h⟩
      · exact ⟨r + 1, by simpa using hr⟩
    · rintro ⟨r, hr⟩
      cases r with
      | zero => exact Or.inl (by simpa using hr)
      | succ r2 => exact Or.inr ⟨r2, by simpa using hr⟩

theorem head?_take (l : Str) (k : Nat) :
    (l.take k).head? = if k = 0 then none else l.head? := by
  cases k <;> cases l <;> simp

theorem alnumThenBrace_take (l : Str) :
    ∀ n : Nat, alnumThenBrace (l.take n) = true → alnumThenBrace l = true := by
  induction l with
  | nil => intro n h; simpa using h
  | cons x rest ih =>
    intro n h
    cases n with
    | zero => simp [alnumThenBrace] at h
    | succ k =>
      simp only [List.take_succ_cons, alnumThenBrace, Bool.and_eq_true, Bool.or_eq_true] at h ⊢
      obtain ⟨hx, hor⟩ := h
      refine ⟨hx, ?_⟩
      rcases hor with hh | ht
      · rw [head?_take] at hh
        by_cases hk : k = 0
        · rw [hk] at hh; simp at hh
        · rw [if_neg hk] at hh; exact Or.inl hh
      · exact Or.inr (ih k ht)

theorem startsTerm_take (l : Str) (n : Nat) (h : startsTerm (l.take n) = true) :
    startsTerm l = true := by
  cases l with
  | nil => simpa using h
  | cons x rest =>
    cases n with
    | zero => simp [startsTerm] at h
    | succ k =>
      simp only [List.take_succ_cons, startsTerm, Bool.and_eq_true] at h ⊢
      exact ⟨h.1, alnumThenBrace_take rest k h.2⟩

/-- `alnumThenBrace` in terms of the maximal alphanumeric run. -/
theorem alnumThenBrace_spec (l : Str) :
    alnumThenBrace l = true ↔
      1 ≤ (l.takeWhile isAlnumChar).length ∧
        l[(l.takeWhile isAlnumChar).length]? = some rbrace := by
  induction l with
  | nil => simp [alnumThenBrace]
  | cons x rest ih =>
    by_cases hx : isAlnumChar x = true
    · have hlen : ((x :: rest).takeWhile isAlnumChar).length
          = (rest.takeWhile isAlnumChar).length + 1 := by
        simp [List.takeWhile_cons, hx]
      rw [hlen]
      simp only [alnumThenBrace, hx, Bool.true_and, Bool.or_eq_true, List.getElem?_cons_succ]
      constructor
      · rintro (hh | ht)
        · have hrb : rest.head? = some rbrace := by simpa using hh
          have htw0 : (rest.takeWhile isAlnumChar).length = 0 := by
            cases rest with
            | nil => rfl
            | cons y ys =>
              have hy : y = rbrace := by simpa using hrb
              subst hy
              have hnb : isAlnumChar rbrace = false := by decide
              simp [List.takeWhile_cons, hnb]
          rw [htw0]
          refine ⟨by omega, ?_⟩
          cases rest with
          | nil => simp at hrb
          | cons y ys => simpa using hrb
        · obtain ⟨h1, h2⟩ := ih.1 ht
          exact ⟨by omega, h2⟩
      · rintro ⟨hge, hidx⟩
        by_cases h0 : (rest.takeWhile isAlnumChar).length = 0
        · left
          rw [h0] at hidx
          cases rest with
          | nil => simp at hidx
          | cons y ys =>
            have hy : y = rbrace := by simpa using hidx
            subst hy
            simp
        · right
          exact ih.2 ⟨by omega, hidx⟩
    · have hxf : isAlnumChar x = false := by simpa using hx
      simp [alnumThenBrace, hxf, List.takeWhile_cons]

theorem drop_eq_tilde_cons (s : Str) (p : Nat) (h : chAt s p tildeC = true) :
    s.drop p = tildeC :: s.drop (p + 1) := by
  have hp : s[p]? = some tildeC := by simpa [chAt] using h
  have hlt : p < s.length := by
    by_contra hge
    rw [List.getElem?_eq_none (by omega)] at hp
    cases hp
  rw [List.drop_eq_getElem_cons hlt]
  have hval : s[p] = tildeC := by
    rw [List.getElem?_eq_getElem hlt] at hp
    exact Option.some.inj hp
  rw [hval]

/-- A successful structural-closer match means the suffix at that offset
starts with a terminator. -/
theorem startsTerm_of_closer (s : Str) (p : Nat) (x : Nat × Str)
    (h : sourceCloserAt s p = some x) : startsTerm (s.drop p) = true := by
  have hc : chAt s p tildeC = true := by
    by_cases hc2 : chAt s p tildeC
    · exact hc2
    · simp [sourceCloserAt, hc2] at h
  have hcond : 1 ≤ alnumRun s (p + 1) ∧ chAt s (p + 1 + alnumRun s (p + 1)) rbrace = true := by
    by_cases h1 : 1 ≤ alnumRun s (p + 1)
    · by_cases h2 : chAt s (p + 1 + alnumRun s (p + 1)) rbrace
      · exact ⟨h1, h2⟩
      · simp [sourceCloserAt, hc, h1, h2] at h
    · simp [sourceCloserAt, hc, h1] at h
  rw [drop_eq_tilde_cons s p hc]
  simp only [startsTerm, beq_self_eq_true, Bool.true_and]
  rw [alnumThenBrace_spec]
  have hrun : alnumRun s (p + 1) = ((s.drop (p + 1)).takeWhile isAlnumChar).length := rfl
  refine ⟨by rw [← hrun]; exact hcond.1, ?_⟩
  rw [← hrun, List.getElem?_drop]
  simpa [chAt] using hcond.2

/-- Conversely, a terminator at an offset makes the structural closer match. -/
theorem closer_of_startsTerm (s : Str) (p : Nat) (h : startsTerm (s.drop p) = true) :
    (sourceCloserAt s p).isSome = true := by
  cases hd : s.drop p with
  | nil => rw [hd] at h; simp [startsTerm] at h
  | cons x rest =>
    rw [hd] at h
    simp only [startsTerm, Bool.and_eq_true, beq_iff_eq] at h
    obtain ⟨rfl, hab⟩ := h
    have hp : s[p]? = some tildeC := by
      rw [← List.head?_drop, hd]
      rfl
    have hc : chAt s p tildeC = true := by simp [chAt, hp]
    have hrest : s.drop (p + 1) = rest := by
      have : (s.drop p).drop 1 = s.drop (p + 1) := by
        rw [List.drop_drop]
      rw [← this, hd]
      rfl
    rw [alnumThenBrace_spec] at hab
    obtain ⟨h1, h2⟩ := hab
    have hrun : alnumRun s (p + 1) = (rest.takeWhile isAlnumChar).length := by
      rw [alnumRun, hrest]
    have hbr : chAt s (p + 1 + alnumRun s (p + 1)) rbrace = true := by
      rw [hrun]
      have := List.getElem?_drop s (p + 1) ((rest.takeWhile isAlnumChar).length)
      rw [hrest] at this
      simp [chAt, ← this, h2]
    have h1b : 1 ≤ alnumRun s (p + 1) := by rw [hrun]; exact h1
    simp [sourceCloserAt, hc, h1b, hbr]

/-- `firstHit` returns the least hit at or after the start offset. -/
theorem firstHit_min {α : Type} (f : Nat → Option α) :
    ∀ (b j0 j : Nat) (a : α), firstHit f j0 b = some (j, a) →
      f j = some a ∧ j0 ≤ j ∧ ∀ q, j0 ≤ q → q < j → f q = none := by
  intro b
  induction b with
  | zero => intro j0 j a h; simp [firstHit] at h
  | succ b ih =>
    intro j0 j a h
    cases hf : f j0 with
    | some a2 =>
      have heq : firstHit f j0 (b + 1) = some (j0, a2) := by
        simp [firstHit, hf]
      rw [heq] at h
      obtain ⟨rfl, rfl⟩ : j0 = j ∧ a2 = a := by
        have := Option.some.inj h
        exact ⟨congrArg Prod.fst this, congrArg Prod.snd this⟩
      exact ⟨hf, le_refl _, fun q hq1 hq2 => absurd hq1 (by omega)⟩
    | none =>
      have heq : firstHit f j0 (b + 1) = firstHit f (j0 + 1) b := by
        simp [firstHit, hf]
      rw [heq] at h
      obtain ⟨hj, hge, hmin⟩ := ih (j0 + 1) j a h
      refine ⟨hj, by omega, fun q hq1 hq2 => ?_⟩
      by_cases hq0 : q = j0
      · rw [hq0]; exact hf
      · exact hmin q (by omega) hq2

/-- The content captured by a structural source match contains no complete
terminator: the lazy group stopped at the first one. -/
theorem captured_no_term (s : Str) (cs0 j e : Nat) (tag : Str)
    (hfh : firstHit (sourceCloserAt s) cs0 (s.length + 1) = some (j, (e, tag))) :
    hasTerm (slice s cs0 j) = false := by
  by_contra hcon
  have h1 : hasTerm (slice s cs0 j) = true := by simpa using hcon
  rw [hasTerm_iff] at h1
  obtain ⟨r, hr⟩ := h1
  have hds : (slice s cs0 j).drop r = (s.drop (cs0 + r)).take (j - cs0 - r) := by
    unfold slice
    rw [List.drop_take, List.drop_drop]
  rw [hds] at hr
  obtain ⟨hfj, hge, hmin⟩ := firstHit_min (sourceCloserAt s) (s.length + 1) cs0 j (e, tag) hfh
  have hrlt : cs0 + r < j := by
    by_contra hge2
    have hz : j - cs0 - r = 0 := by omega
    rw [hz] at hr
    simp [startsTerm] at hr
  have hst : startsTerm (s.drop (cs0 + r)) = true := startsTerm_take _ _ hr
  have hsome : (sourceCloserAt s (cs0 + r)).isSome = true := closer_of_startsTerm s (cs0 + r) hst
  rw [hmin (cs0 + r) (by omega) hrlt] at hsome
  cases hsome

/-! The two replacements of `unescapeStructuralBlockContent` cannot create a
terminator: their outputs (`\` and `~`) are never alphanumeric or a brace, and
a tilde they output stands where the raw text already had a tilde followed by
the same characters. -/

theorem replace2_pair_eq (a b c x y : Char) (l : Str) (h : (x == a && y == b) = true) :
    replace2 a b c (x :: y :: l) = c :: replace2 a b c l := by
  simp [replace2, h]

theorem replace2_pair_ne (a b c x y : Char) (l : Str) (h : ¬ (x == a && y == b) = true) :
    replace2 a b c (x :: y :: l) = x :: replace2 a b c (y :: l) := by
  simp [replace2, h]

theorem head?_replace2 (a b c : Char) (l : Str) :
    (replace2 a b c l).head? = l.head? ∨ (replace2 a b c l).head? = some c := by
  cases l with
  | nil => left; rfl
  | cons x tl =>
    cases tl with
    | nil => left; rfl
    | cons y rest =>
      by_cases h : (x == a && y == b) = true
      · right; rw [replace2_pair_eq a b c x y rest h]; rfl
      · left; rw [replace2_pair_ne a b c x y rest h]; rfl

theorem alnumThenBrace_cons (x : Char) (tl : Str) :
    alnumThenBrace (x :: tl)
      = (isAlnumChar x && (tl.head? == some rbrace || alnumThenBrace tl)) := rfl

theorem startsTerm_cons (x : Char) (tl : Str) :
    startsTerm (x :: tl) = (x == tildeC && alnumThenBrace tl) := rfl

theorem hasTerm_cons (x : Char) (tl : Str) :
    hasTerm (x :: tl) = (startsTerm (x :: tl) || hasTerm tl) := rfl

theorem alnumThenBrace_replace2 (a b c : Char) (hca : isAlnumChar c = false)
    (hcr : (c == rbrace) = false) :
    ∀ (n : Nat) (l : Str), l.length ≤ n →
      alnumThenBrace (replace2 a b c l) = true → alnumThenBrace l = true := by
  intro n
  induction n with
  | zero =>
    intro l hlen h
    have : l = [] := by cases l with | nil => rfl | cons x tl => simp at hlen
    subst this
    simpa using h
  | succ n ih =>
    intro l hlen h
    cases l with
    | nil => simpa using h
    | cons x tl =>
      cases tl with
      | nil => simpa [replace2] using h
      | cons y rest =>
        by_cases hp : (x == a && y == b) = true
        · rw [replace2_pair_eq a b c x y rest hp] at h
          rw [alnumThenBrace_cons] at h
          simp [hca] at h
        · rw [replace2_pair_ne a b c x y rest hp] at h
          rw [alnumThenBrace_cons] at h
          rw [alnumThenBrace_cons]
          simp only [Bool.and_eq_true, Bool.or_eq_true] at h ⊢
          obtain ⟨hx, hor⟩ := h
          refine ⟨hx, ?_⟩
          rcases hor with hh | ht
          · rcases head?_replace2 a b c (y :: rest) with he | he
            · rw [he] at hh
              exact Or.inl hh
            · rw [he] at hh
              have hbad : (c == rbrace) = true := by simpa using hh
              rw [hcr] at hbad
              cases hbad
          · exact Or.inr (ih (y :: rest) (by simp at hlen ⊢; omega) ht)

theorem hasTerm_replace2 (a b c : Char) (hca : isAlnumChar c = false)
    (hcr : (c == rbrace) = false) (hct : c = tildeC → b = tildeC) :
    ∀ (n : Nat) (l : Str), l.length ≤ n →
      hasTerm (replace2 a b c l) = true → hasTerm l = true := by
  intro n
  induction n with
  | zero =>
    intro l hlen h
    have : l = [] := by cases l with | nil => rfl | cons x tl => simp at hlen
    subst this
    simpa using h
  | succ n ih =>
    intro l hlen h
    cases l with
    | nil => simpa using h
    | cons x tl =>
      cases tl with
      | nil => simpa [replace2] using h
      | cons y rest =>
        by_cases hp : (x == a && y == b) = true
        · rw [replace2_pair_eq a b c x y rest hp] at h
          rw [hasTerm_cons] at h
          rw [hasTerm_cons]
          simp only [Bool.or_eq_true] at h ⊢
          rcases h with hs | ht
          · -- a terminator starting at the replacement character `c`
            rw [startsTerm_cons] at hs
            simp only [Bool.and_eq_true, beq_iff_eq] at hs
            obtain ⟨rfl, hab⟩ := hs
            have hyb : y = b := by
              simp only [Bool.and_eq_true, beq_iff_eq] at hp
              exact hp.2
            have hy : y = tildeC := by rw [hyb]; exact hct rfl
            right
            rw [hasTerm_cons]
            simp only [Bool.or_eq_true]
            left
            rw [startsTerm_cons]
            simp only [Bool.and_eq_true, beq_iff_eq]
            exact ⟨hy, alnumThenBrace_replace2 a b tildeC hca hcr rest.length rest
              (le_refl _) hab⟩
          · right
            rw [hasTerm_cons]
            simp only [Bool.or_eq_true]
            right
            exact ih rest (by simp at hlen ⊢; omega) ht
        · rw [replace2_pair_ne a b c x y rest hp] at h
          rw [hasTerm_cons] at h
          rw [hasTerm_cons]
          simp only [Bool.or_eq_true] at h ⊢
          rcases h with hs | ht
          · left
            rw [startsTerm_cons] at hs ⊢
            simp only [Bool.and_eq_true] at hs ⊢
            exact ⟨hs.1, alnumThenBrace_replace2 a b c hca hcr (y :: rest).length (y :: rest)
              (le_refl _) hs.2⟩
          · right
            exact ih (y :: rest) (by simp at hlen ⊢; omega) ht

theorem hasTerm_unescapeStructural (raw : Str) (h : hasTerm raw = false) :
    hasTerm (unescapeStructuralBlockContent raw) = false := by
  by_contra hcon
  have h2 : hasTerm (replace2 bsC tildeC tildeC (replace2 bsC bsC bsC raw)) = true := by
    simpa [unescapeStructuralBlockContent] using hcon
  have h3 := hasTerm_replace2 bsC tildeC tildeC (by decide) (by decide) (fun _ => rfl)
    (replace2 bsC bsC bsC raw).length (replace2 bsC bsC bsC raw) (le_refl _) h2
  have h4 := hasTerm_replace2 bsC bsC bsC (by decide) (by decide)
    (fun hc => absurd hc (by decide)) raw.length raw (le_refl _) h3
  rw [h] at h4
  cases h4

/-! Tracing a parsed `StructuralSource` node back to its matcher. -/

theorem findAllWith_mem (tryf : Nat → Option GenericMatch) :
    ∀ (b i : Nat) (m : GenericMatch), m ∈ findAllWith tryf i b → ∃ p, tryf p = some m := by
  intro b
  induction b with
  | zero => intro i m h; simp [findAllWith] at h
  | succ b ih =>
    intro i m h
    cases ht : tryf i with
    | some m2 =>
      have heq : findAllWith tryf i (b + 1) = m2 :: findAllWith tryf m2.endIndex b := by
        rw [findAllWith, ht]
      rw [heq] at h
      rcases List.mem_cons.1 h with rfl | htail
      · exact ⟨i, ht⟩
      · exact ih m2.endIndex m htail
    | none =>
      have heq : findAllWith tryf i (b + 1) = findAllWith tryf (i + 1) b := by
        rw [findAllWith, ht]
      rw [heq] at h
      exact ih (i + 1) m h

theorem interleave_nil (input : Str) (last : Nat) :
    interleave input [] last
      = if last < input.length then [Node.text (slice input last input.length)] else [] := rfl

theorem interleave_cons (input : Str) (m : GenericMatch) (ms : List GenericMatch) (last : Nat) :
    interleave input (m :: ms) last
      = if m.startIndex < last then interleave input ms last
        else (if last < m.startIndex then [Node.text (slice input last m.startIndex)] else [])
          ++ m.node :: interleave input ms m.endIndex := rfl

theorem interleave_mem (input : Str) :
    ∀ (ms : List GenericMatch) (cur : Nat) (n : Node), n ∈ interleave input ms cur →
      (∃ m ∈ ms, n = m.node) ∨ ∃ t, n = Node.text t := by
  intro ms
  induction ms with
  | nil =>
    intro cur n h
    rw [interleave_nil] at h
    by_cases hc : cur < input.length
    · rw [if_pos hc] at h
      rw [List.mem_singleton] at h
      exact Or.inr ⟨_, h⟩
    · rw [if_neg hc] at h
      simp at h
  | cons m rest ih =>
    intro cur n h
    rw [interleave_cons] at h
    by_cases hlt : m.startIndex < cur
    · rw [if_pos hlt] at h
      rcases ih cur n h with ⟨m2, hm2, hn⟩ | ht
      · exact Or.inl ⟨m2, List.mem_cons_of_mem m hm2, hn⟩
      · exact Or.inr ht
    · rw [if_neg hlt] at h
      rcases List.mem_append.1 h with hgap | hrest
      · by_cases hg : cur < m.startIndex
        · rw [if_pos hg] at hgap
          rw [List.mem_singleton] at hgap
          exact Or.inr ⟨_, hgap⟩
        · rw [if_neg hg] at hgap
          simp at hgap
      · rcases List.mem_cons.1 hrest with rfl | htail
        · exact Or.inl ⟨m, List.mem_cons_self m rest, rfl⟩
        · rcases ih m.endIndex n htail with ⟨m2, hm2, hn⟩ | ht
          · exact Or.inl ⟨m2, List.mem_cons_of_mem m hm2, hn⟩
          · exact Or.inr ht

theorem tryInlineAt_shape (s : Str) (et : Str) (o c : Char) (i : Nat) (m : GenericMatch)
    (h : tryInlineAt s et o c i = some m) :
    ∃ a b2 c2, m.node = Node.inlineEdit a b2 c2 := by
  unfold tryInlineAt at h
  split at h
  · split at h
    · injection h with h2
      subst h2
      exact ⟨_, _, _, rfl⟩
    · cases h
  · cases h

theorem tryTargetAt_shape (s : Str) (kws : List Str) (opN : Str) (i : Nat) (m : GenericMatch)
    (h : tryTargetAt s kws opN i = some m) :
    ∃ a b2, m.node = Node.structuralTarget a b2 := by
  unfold tryTargetAt at h
  split at h
  · split at h
    · rename_i p hkw
      by_cases hc : (decide (1 ≤ alnumRun s p) && chAt s (p + alnumRun s p) rbrace) = true
      · simp only [hc, if_true] at h
        have h2 : (⟨i, p + alnumRun s p + 1,
            Node.structuralTarget opN (slice s p (p + alnumRun s p))⟩ : GenericMatch) = m :=
          Option.some.inj h
        rw [← h2]
        exact ⟨_, _, rfl⟩
      · simp only [hc, Bool.false_eq_true, if_false] at h
        cases h
    · cases h
  · cases h

theorem trySourceAt_spec (s : Str) (kws : List Str) (opN : Str) (i : Nat) (m : GenericMatch)
    (h : trySourceAt s kws opN i = some m) :
    ∃ cs0 j e tag2, firstHit (sourceCloserAt s) cs0 (s.length + 1) = some (j, (e, tag2)) ∧
      m.node = Node.structuralSource opN tag2 (unescapeStructuralBlockContent (slice s cs0 j)) := by
  unfold trySourceAt at h
  split at h
  · split at h
    · rename_i cs0 hkw
      cases hfh : firstHit (sourceCloserAt s) cs0 (s.length + 1) with
      | some x =>
        obtain ⟨j, e, tag2⟩ := x
        simp only [hfh] at h
        have h2 : (⟨i, e, Node.structuralSource opN tag2
            (unescapeStructuralBlockContent (slice s cs0 j))⟩ : GenericMatch) = m :=
          Option.some.inj h
        rw [← h2]
        exact ⟨cs0, j, e, tag2, hfh, rfl⟩
      | none =>
        simp only [hfh] at h
        cases h
    · cases h
  · cases h

/-- Any `StructuralSource` node the parser produces carries a block content
that is the unescaping of a captured slice found by a structural source
matcher. -/
theorem parse_source_firstHit (s : Str) (op tag bc : Str)
    (h : Node.structuralSource op tag bc ∈ ParseEditMLToNodes s) :
    ∃ cs0 j e tag2, firstHit (sourceCloserAt s) cs0 (s.length + 1) = some (j, (e, tag2)) ∧
      bc = unescapeStructuralBlockContent (slice s cs0 j) := by
  unfold ParseEditMLToNodes at h
  rcases interleave_mem s _ 0 _ h with ⟨m, hm, hn⟩ | ⟨t, ht⟩
  · have hcand : m ∈ allCandidates s := (sortMatches_perm (allCandidates s)).mem_iff.1 hm
    have hinl : ∀ et o c, m ∈ findAllWith (tryInlineAt s et o c) 0 (s.length + 1) → False := by
      intro et o c hmem
      obtain ⟨p, hp⟩ := findAllWith_mem _ _ _ _ hmem
      obtain ⟨a, b2, c2, hshape⟩ := tryInlineAt_shape s et o c p m hp
      rw [hshape] at hn
      cases hn
    have htgt : ∀ kws opN, m ∈ findAllWith (tryTargetAt s kws opN) 0 (s.length + 1) → False := by
      intro kws opN hmem
      obtain ⟨p, hp⟩ := findAllWith_mem _ _ _ _ hmem
      obtain ⟨a, b2, hshape⟩ := tryTargetAt_shape s kws opN p m hp
      rw [hshape] at hn
      cases hn
    have hsrc : ∀ kws opN, m ∈ findAllWith (trySourceAt s kws opN) 0 (s.length + 1) →
        ∃ cs0 j e tag2, firstHit (sourceCloserAt s) cs0 (s.length + 1) = some (j, (e, tag2)) ∧
          bc = unescapeStructuralBlockContent (slice s cs0 j) := by
      intro kws opN hmem
      obtain ⟨p, hp⟩ := findAllWith_mem _ _ _ _ hmem
      obtain ⟨cs0, j, e, tag2, hfh, hshape⟩ := trySourceAt_spec s kws opN p m hp
      rw [hshape] at hn
      injection hn with hop htag hbc
      exact ⟨cs0, j, e, tag2, hfh, hbc⟩
    unfold allCandidates at hcand
    rcases List.mem_append.1 hcand with h7 | hc8
    · rcases List.mem_append.1 h7 with h6 | hc7
      · rcases List.mem_append.1 h6 with h5 | hc6
        · rcases List.mem_append.1 h5 with h4 | hc5
          · rcases List.mem_append.1 h4 with h3 | hc4
            · rcases List.mem_append.1 h3 with h2 | hc3
              · rcases List.mem_append.1 h2 with hc1 | hc2
                · exact absurd hc1 (hinl _ _ _)
                · exact absurd hc2 (hinl _ _ _)
              · exact absurd hc3 (hinl _ _ _)
            · exact absurd hc4 (hinl _ _ _)
          · exact hsrc _ _ hc5
        · exact absurd hc6 (htgt _ _)
      · exact hsrc _ _ hc7
    · exact absurd hc8 (htgt _ _)
  · cases ht

theorem parse_source_raw (s : Str) (op tag bc : Str)
    (h : Node.structuralSource op tag bc ∈ ParseEditMLToNodes s) :
    ∃ raw, hasTerm raw = false ∧ bc = unescapeStructuralBlockContent raw := by
  obtain ⟨cs0, j, e, tag2, hfh, hbc⟩ := parse_source_firstHit s op tag bc h
  exact ⟨slice s cs0 j, captured_no_term s cs0 j e tag2 hfh, hbc⟩

/-- A string with no terminator parses to a sequence without source nodes. -/
theorem parse_no_sources_of_no_term (bc2 : Str) (h : hasTerm bc2 = false) :
    ∀ op tag bc3, Node.structuralSource op tag bc3 ∉ ParseEditMLToNodes bc2 := by
  intro op tag bc3 hmem
  obtain ⟨cs0, j, e, tag2, hfh, _⟩ := parse_source_firstHit bc2 op tag bc3 hmem
  obtain ⟨hfj, _, _⟩ := firstHit_min (sourceCloserAt bc2) (bc2.length + 1) cs0 j (e, tag2) hfh
  have hst : startsTerm (bc2.drop j) = true := startsTerm_of_closer bc2 j _ hfj
  have hcon : hasTerm bc2 = true := (hasTerm_iff bc2).2 ⟨j, hst⟩
  rw [h] at hcon
  cases hcon

/-! Fuel congruence: the pre-scan and the rendering pass use the block
transformer only on the source nodes actually present. -/

theorem prescan_congr (bt1 bt2 : Str → Str → Str → Str) :
    ∀ (l : List Node) (ss : SMap) (ts : TMap) (cs : CMap),
      (∀ op tag bc, Node.structuralSource op tag bc ∈ l → bt1 op bc tag = bt2 op bc tag) →
      prescan bt1 l ss ts cs = prescan bt2 l ss ts cs := by
  intro l
  induction l with
  | nil => intro ss ts cs _; rfl
  | cons n rest ih =>
    intro ss ts cs h
    have htail : ∀ op tag bc, Node.structuralSource op tag bc ∈ rest →
        bt1 op bc tag = bt2 op bc tag :=
      fun op tag bc hm => h op tag bc (List.mem_cons_of_mem n hm)
    cases n with
    | text t => simp only [prescan]; exact ih ss ts cs htail
    | inlineEdit et c id => simp only [prescan]; exact ih ss ts cs htail
    | structuralSource op tag bc =>
      simp only [prescan]
      rw [h op tag bc (List.mem_cons_self _ _)]
      by_cases hdup : (alookup tag ss).isSome = true
      · rw [if_pos hdup, if_pos hdup]
      · rw [if_neg hdup, if_neg hdup]
        exact ih _ ts cs htail
    | structuralTarget op tag =>
      simp only [prescan]
      split_ifs with h1 h2
      · rfl
      · exact ih ss _ _ htail
      · exact ih ss _ cs htail

theorem goTransform_congr (bt1 bt2 : Str → Str → Str → Str) (nodes : List Node)
    (h : ∀ op tag bc, Node.structuralSource op tag bc ∈ nodes → bt1 op bc tag = bt2 op bc tag) :
    goTransform bt1 nodes = goTransform bt2 nodes := by
  unfold goTransform
  rw [prescan_congr bt1 bt2 nodes [] [] [] h]

/-- No `StructuralSource` node occurs in the sequence. -/
def noSources (l : List Node) : Prop :=
  ∀ op tag bc, Node.structuralSource op tag bc ∉ l

theorem transform_congr_noSources (l : List Node) (hns : noSources l) (f g : Nat) :
    TransformToCleanView f l = TransformToCleanView g l := by
  rw [transform_eq_go, transform_eq_go]
  exact goTransform_congr _ _ l (fun op tag bc hm => absurd hm (hns op tag bc))

theorem transform_congr_level2 (l : List Node)
    (h2 : ∀ op tag bc, Node.structuralSource op tag bc ∈ l → noSources (ParseEditMLToNodes bc))
    (f g : Nat) (hf : 1 ≤ f) (hg : 1 ≤ g) :
    TransformToCleanView f l = TransformToCleanView g l := by
  obtain ⟨f2, rfl⟩ : ∃ f2, f = f2 + 1 := ⟨f - 1, by omega⟩
  obtain ⟨g2, rfl⟩ : ∃ g2, g = g2 + 1 := ⟨g - 1, by omega⟩
  rw [transform_eq_go, transform_eq_go]
  apply goTransform_congr
  intro op tag bc hm
  simp only [btOf]
  rw [transform_congr_noSources (ParseEditMLToNodes bc) (h2 op tag bc hm) f2 g2]

/-- C8 amended: fuel `2` is a fixed point of the transformation on every node
sequence: captured block content never re-parses into further source nodes,
so the recursion depth is bounded and the Go recursion terminates. -/
theorem transform_stabilizes (nodes : List Node) (f g : Nat) (hf : 2 ≤ f) (hg : 2 ≤ g) :
    TransformToCleanView f nodes = TransformToCleanView g nodes := by
  obtain ⟨f2, rfl⟩ : ∃ f2, f = f2 + 1 := ⟨f - 1, by omega⟩
  obtain ⟨g2, rfl⟩ : ∃ g2, g = g2 + 1 := ⟨g - 1, by omega⟩
  rw [transform_eq_go, transform_eq_go]
  apply goTransform_congr
  intro op tag bc hm
  simp only [btOf]
  have h2 : ∀ op2 tag2 bc2, Node.structuralSource op2 tag2 bc2 ∈ ParseEditMLToNodes bc →
      noSources (ParseEditMLToNodes bc2) := by
    intro op2 tag2 bc2 hm2
    obtain ⟨raw, hraw, rfl⟩ := parse_source_raw bc op2 tag2 bc2 hm2
    intro op3 tag3 bc3
    exact parse_no_sources_of_no_term _ (hasTerm_unescapeStructural raw hraw) op3 tag3 bc3
  rw [transform_congr_level2 (ParseEditMLToNodes bc) h2 f2 g2 (by omega) (by omega)]

/-- The transformation's fuel-indexed results reach a fixed point. -/
def TransformStabilizes (nodes : List Node) : Prop :=
  ∃ N, ∀ f, N ≤ f → TransformToCleanView f nodes = TransformToCleanView N nodes

/-- C8 counterexample (negation of the claim): there is no input text on
which the structural recursion fails to reach a fixed point; every parsed
document stabilises at depth 2. -/
theorem structuralRecursion_no_divergence :
    ¬ ∃ input : Str, ¬ TransformStabilizes (ParseEditMLToNodes input) := by
  rintro ⟨input, hdiv⟩
  exact hdiv ⟨2, fun f hf => transform_stabilizes _ f 2 hf (by omega)⟩

/-- Witness for the amended C8 theorem on a nested-looking input
`\x7bmove~\x7bmove~X~a\x7d~b\x7d`. -/
theorem transform_stabilizes_witness :
    TransformToCleanView 5
        (ParseEditMLToNodes
          (lbrace :: str "move~" ++ lbrace :: str "move~X~a" ++ rbrace :: str "~b" ++ [rbrace]))
      = TransformToCleanView 2
          (ParseEditMLToNodes
            (lbrace :: str "move~" ++ lbrace :: str "move~X~a" ++ rbrace :: str "~b" ++ [rbrace])) :=
  transform_stabilizes _ 5 2 (by omega) (by omega)

end EditML
